import Mathlib

/-!
# Necklace enumeration (`script.js`): embedding and verified properties

The enumeration core of `src/script.js` is embedded as pure Lean functions.

* Numbers are unbounded integers (`Int`); the JavaScript numbers of the program are
  integers well inside the exactly representable range for every input the page accepts.
* Arrays are `List Int`.  The length parameter `l` is a natural number (the recursion of
  `solveGeneral` does not terminate for a negative length); `p` and `m` are arbitrary
  integers, as `parseInt` can deliver them.
* The mutable pair `results` (a `Set` of keys) / `validNecklaces` (an array) of the two
  solvers is threaded explicitly as a `SearchState`.
* The recursion of the two `backtrack` closures is structural in the number of slots
  still to fill, `l - current.length`; the leaf test `current.length === l` is the case
  where that number is `0`.
-/

namespace Colliers

/-! ## Embedding of the source -/

/-- Source `compareArrays(a, b)`: walks the indices of `a`; an index past the end of `b` reads
`undefined`, for which both comparisons are false, so the walk continues. -/
def compareArrays : List Int → List Int → Int
  | [], _ => 0
  | _ :: as, [] => compareArrays as []
  | a :: as, b :: bs =>
    if a > b then 1
    else if a < b then -1
    else compareArrays as bs

/-- Source `arr.slice(0, m)`: a negative end counts from the end of the array, and the end is
clamped to the bounds of the array. -/
def sliceFromZero (arr : List Int) (m : Int) : List Int :=
  if m < 0 then arr.take ((arr.length : Int) + m).toNat else arr.take m.toNat

/-- The `for (let val of extended)` loop of `failsZeroConstraint`, with the counter
`consecutive` as an argument. -/
def scanZeros (m : Int) : Nat → List Int → Bool
  | _, [] => false
  | consecutive, val :: rest =>
    if val = 0 then
      if ((consecutive + 1 : Nat) : Int) ≥ m then true
      else scanZeros m (consecutive + 1) rest
    else scanZeros m 0 rest

/-- Source `failsZeroConstraint(arr, m)`: the array is extended by `arr.slice(0, m)` and
scanned from a counter of `0`. -/
def failsZeroConstraint (arr : List Int) (m : Int) : Bool :=
  let extended := arr ++ sliceFromZero arr m
  scanZeros m 0 extended

/-- Source `arr.join(',')` on an array of integers: the decimal renderings separated by commas. -/
def joinComma : List Int → String
  | [] => ""
  | [x] => toString x
  | x :: y :: rest => toString x ++ "," ++ joinComma (y :: rest)

/-- The object `{ arr, key }` returned by `getCanonical`. -/
structure Canonical where
  arr : List Int
  key : String
deriving DecidableEq

/-- Source `double.slice(i, i + len)`. -/
def sliceWindow (double : List Int) (i len : Nat) : List Int :=
  (double.drop i).take len

/-- One iteration of the loop of `getCanonical`. -/
def canonicalStep (double : List Int) (len : Nat) (acc : Canonical) (i : Nat) : Canonical :=
  let candidate := sliceWindow double i len
  if compareArrays candidate acc.arr > 0 then ⟨candidate, joinComma candidate⟩ else acc

/-- Source `getCanonical(arr)`: the loop runs over `i = 1, …, len - 1`. -/
def getCanonical (arr : List Int) : Canonical :=
  let len := arr.length
  let double := arr ++ arr
  (List.range' 1 (len - 1)).foldl (canonicalStep double len) ⟨arr, joinComma arr⟩

/-- The mutable state shared by a `backtrack` closure: the key set `results` and the
array `validNecklaces`. -/
structure SearchState where
  results : List String
  validNecklaces : List (List Int)
deriving DecidableEq

/-- Source `current.reduce((a, b) => a + b, 0)`. -/
def sumArr (current : List Int) : Int :=
  current.foldl (fun a b => a + b) 0

/-- The canonicalise-and-deduplicate block shared by the two solvers:
`if (!results.has(canonical.key)) { results.add(canonical.key); validNecklaces.push(canonical.arr) }`. -/
def record (current : List Int) (st : SearchState) : SearchState :=
  let canonical := getCanonical current
  if canonical.key ∈ st.results then st
  else ⟨st.results ++ [canonical.key], st.validNecklaces ++ [canonical.arr]⟩

/-- The closure `backtrack` of `solveBinary`; the first argument is `l - current.length`. -/
def backtrackBinary (p m : Int) : Nat → List Int → SearchState → SearchState
  | 0, current, st =>
    if sumArr current ≠ p then st
    else if failsZeroConstraint current m then st
    else record current st
  | remaining + 1, current, st =>
    let currentSum := sumArr current
    if currentSum + ((remaining + 1 : Nat) : Int) < p then st
    else if currentSum > p then st
    else
      let st1 := backtrackBinary p m remaining (current ++ [1]) st
      backtrackBinary p m remaining (current ++ [0]) st1

/-- The values `remainingSum, remainingSum - 1, …, 0` visited by
`for (let v = remainingSum; v >= 0; v--)`; none when `remainingSum` is negative. -/
def countdown (remainingSum : Int) : List Int :=
  ((List.range (remainingSum + 1).toNat).map fun (k : Nat) => (k : Int)).reverse

/-- The closure `backtrack` of `solveGeneral`; the first argument is `l - current.length`. -/
def backtrackGeneral (p m : Int) : Nat → List Int → SearchState → SearchState
  | 0, current, st =>
    if sumArr current = p then
      if failsZeroConstraint current m then st
      else record current st
    else st
  | remaining + 1, current, st =>
    let currentSum := sumArr current
    let remainingSum := p - currentSum
    (countdown remainingSum).foldl
      (fun acc v => backtrackGeneral p m remaining (current ++ [v]) acc) st

/-- The comparator `(a, b) => compareArrays(b, a)` read as "`a` may stand before `b`". -/
def descOrder (a b : List Int) : Prop := compareArrays b a ≤ 0

instance : DecidableRel descOrder := fun a b => by unfold descOrder; infer_instance

/-- Source `validNecklaces.sort((a, b) => compareArrays(b, a))`.  `Array.prototype.sort` is
stable; a stable insertion sort gives the same list as any other stable sort whenever the
comparator is consistent on the elements, which it is on arrays of one length. -/
def sortDescending (validNecklaces : List (List Int)) : List (List Int) :=
  validNecklaces.insertionSort descOrder

/-- Source `solveBinary(l, p, m)`: the search from the empty array and the empty state,
then the sort. -/
def solveBinary (l : Nat) (p m : Int) : List (List Int) :=
  sortDescending (backtrackBinary p m l [] ⟨[], []⟩).validNecklaces

/-- Source `solveGeneral(l, p, m)`: the search from the empty array and the empty state,
then the sort. -/
def solveGeneral (l : Nat) (p m : Int) : List (List Int) :=
  sortDescending (backtrackGeneral p m l [] ⟨[], []⟩).validNecklaces

/-- The binary branch of the click handler:
`let binaryNecklaces = []; if (p <= l) { binaryNecklaces = solveBinary(l, p, m); }`. -/
def binaryMode (l : Nat) (p m : Int) : List (List Int) :=
  if p ≤ (l : Int) then solveBinary l p m else []

/-! ## Vocabulary of the statements -/

/-- Positions `i, …, i + n - 1` of `xs` exist and hold zeros. -/
def ZeroRunAt (xs : List Int) (i n : Nat) : Prop :=
  ∀ j, j < n → xs[i + j]? = some 0

/-- A circular run of `n` zeros in `arr`: a start index from which `n` consecutive
positions, read modulo the length, hold zeros. -/
def CircularRun (arr : List Int) (n : Nat) : Prop :=
  ∃ i, i < arr.length ∧ ∀ j, j < n → arr[(i + j) % arr.length]? = some 0

/-- Value of a string of decimal digits, most significant first. -/
def digitsValue (cs : List Char) : Nat :=
  cs.foldl (fun acc c => acc * 10 + (c.toNat - 48)) 0

/-- The characters of the decimal rendering of an integer. -/
def intChars (x : Int) : List Char := (toString x).data

/-- What follows the first rendering in a key: nothing, or a comma and the key of the
rest. -/
def keyTail (rest : List Int) : List Char :=
  if rest = [] then [] else ',' :: (joinComma rest).data

/-- The array `arr` is the canonical form of a complete candidate `s` that passed the
tests of a leaf: length `l`, entries in the domain `Dom`, sum `p`, run check negative. -/
def FromLeaf (Dom : Int → Prop) (l : Nat) (p m : Int) (arr : List Int) : Prop :=
  ∃ s : List Int, s.length = l ∧ (∀ x ∈ s, Dom x) ∧ s.sum = p ∧
    failsZeroConstraint s m = false ∧ arr = (getCanonical s).arr

/-- Invariant of the pair `results` / `validNecklaces`: the keys are those of the stored
arrays, in order; no array is stored twice; every stored array satisfies `Q`. -/
structure StateOK (Q : List Int → Prop) (st : SearchState) : Prop where
  keys : st.results = st.validNecklaces.map joinComma
  nodup : st.validNecklaces.Nodup
  sound : ∀ arr ∈ st.validNecklaces, Q arr

/-- The domain of binary mode. -/
def IsBit (x : Int) : Prop := x = 0 ∨ x = 1

/-- The domain of general mode. -/
def IsNonneg (x : Int) : Prop := 0 ≤ x

/-- Index `i` is the first position where `a` and `b` differ: all earlier positions agree,
and position `i` holds `x` in `a` and a different `y` in `b`. -/
def FirstDiff (a b : List Int) (i : Nat) (x y : Int) : Prop :=
  (∀ j, j < i → a[j]? = b[j]?) ∧ a[i]? = some x ∧ b[i]? = some y ∧ x ≠ y

/-- Documented variant of the run check (the comment in the source and the design text):
the array is extended by its first `m - 1` entries only, `arr.concat(arr.slice(0, m - 1))`,
and scanned by the same loop. -/
def failsZeroConstraintShortExtension (arr : List Int) (m : Int) : Bool :=
  let extended := arr ++ sliceFromZero arr (m - 1)
  scanZeros m 0 extended

/-- The leaf block of `backtrack` in `solveGeneral`, run on a completed array:
`if (sum === p) { if (failsZeroConstraint(current, m)) return; ... }`. -/
def leafGeneral (p m : Int) (current : List Int) (st : SearchState) : SearchState :=
  if sumArr current = p then
    if failsZeroConstraint current m then st
    else record current st
  else st

/-- The recursion of `backtrack` in `solveGeneral` with the leaf block abstracted to
`leaf`: the same slots and the same loop over `remainingSum, …, 0`. -/
def visitGeneral {σ : Type} (leaf : List Int → σ → σ) (p : Int) : Nat → List Int → σ → σ
  | 0, current, st => leaf current st
  | remaining + 1, current, st =>
    let currentSum := sumArr current
    let remainingSum := p - currentSum
    (countdown remainingSum).foldl
      (fun acc v => visitGeneral leaf p remaining (current ++ [v]) acc) st

/-- The completed arrays (length `l`) reached by `backtrack` of `solveGeneral(l, p, m)`,
in the order of the visits: the traversal run with a leaf block that logs its array. -/
def reachedGeneral (p : Int) (l : Nat) : List (List Int) :=
  visitGeneral (fun current acc => acc ++ [current]) p l [] []

/-- The test "all entries are at most 1" used to restrict general mode to {0, 1}. -/
def entriesAtMostOne (r : List Int) : Bool := r.all (fun x => decide (x ≤ 1))

/-! ## The comparator on arrays of one length -/

theorem compareArrays_nil_right (a : List Int) : compareArrays a [] = 0 := by
  induction a with
  | nil => rfl
  | cons x xs ih => simpa [compareArrays] using ih

theorem compareArrays_self (a : List Int) : compareArrays a a = 0 := by
  induction a with
  | nil => rfl
  | cons x xs ih => simpa [compareArrays] using ih

theorem compareArrays_eq_zero : ∀ (a b : List Int), a.length = b.length →
    compareArrays a b = 0 → a = b
  | [], [], _, _ => rfl
  | [], _ :: _, h, _ => by simp at h
  | _ :: _, [], h, _ => by simp at h
  | x :: xs, y :: ys, hlen, h => by
    simp only [compareArrays] at h
    split_ifs at h with h1 h2
    · omega
    · have hxy : x = y := by omega
      have := compareArrays_eq_zero xs ys (by simpa using hlen) h
      rw [hxy, this]

theorem compareArrays_swap : ∀ (a b : List Int), a.length = b.length →
    compareArrays b a = - compareArrays a b
  | [], [], _ => rfl
  | [], _ :: _, h => by simp at h
  | _ :: _, [], h => by simp at h
  | x :: xs, y :: ys, hlen => by
    have ih := compareArrays_swap xs ys (by simpa using hlen)
    simp only [compareArrays]
    split_ifs <;> omega

theorem compareArrays_trans : ∀ (a b c : List Int), a.length = b.length →
    b.length = c.length → compareArrays a b ≤ 0 → compareArrays b c ≤ 0 →
    compareArrays a c ≤ 0
  | [], _, _, _, _, _, _ => by simp [compareArrays]
  | _ :: _, [], _, h, _, _, _ => by simp at h
  | _ :: _, _ :: _, [], _, h, _, _ => by simp at h
  | x :: xs, y :: ys, z :: zs, h1, h2, hab, hbc => by
    have ih := compareArrays_trans xs ys zs (by simpa using h1) (by simpa using h2)
    simp only [compareArrays] at hab hbc ⊢
    split_ifs at hab hbc ⊢ <;> omega

theorem compareArrays_total (a b : List Int) (hlen : a.length = b.length) :
    compareArrays a b ≤ 0 ∨ compareArrays b a ≤ 0 := by
  have := compareArrays_swap a b hlen
  omega

theorem compareArrays_antisymm (a b : List Int) (hlen : a.length = b.length)
    (hab : compareArrays a b ≤ 0) (hba : compareArrays b a ≤ 0) : a = b := by
  have := compareArrays_swap a b hlen
  exact compareArrays_eq_zero a b hlen (by omega)

/-! ## Rotations and `getCanonical` -/

theorem sliceWindow_double (arr : List Int) (i : Nat) (hi : i ≤ arr.length) :
    sliceWindow (arr ++ arr) i arr.length = arr.rotate i := by
  unfold sliceWindow
  rw [List.rotate_eq_drop_append_take hi, List.drop_append_of_le_length hi,
    List.take_append_eq_append_take]
  have h1 : (List.drop i arr).length ≤ arr.length := by simp
  have h2 : arr.length - (List.drop i arr).length = i := by
    simp only [List.length_drop]; omega
  rw [List.take_of_length_le h1, h2]

/-- The loop of `getCanonical` from an accumulator `acc`, over offsets `is`: the result
is the accumulator or one of the visited rotations, carries the key of its array, and is
at least the accumulator and every visited rotation. -/
theorem canonical_fold (arr : List Int) : ∀ (is : List Nat) (acc : Canonical),
    (∀ i ∈ is, i ≤ arr.length) → acc.arr.length = arr.length →
    acc.key = joinComma acc.arr →
    let res := is.foldl (canonicalStep (arr ++ arr) arr.length) acc
    (res.arr = acc.arr ∨ ∃ i ∈ is, res.arr = arr.rotate i) ∧
    res.key = joinComma res.arr ∧
    res.arr.length = arr.length ∧
    compareArrays acc.arr res.arr ≤ 0 ∧
    ∀ i ∈ is, compareArrays (arr.rotate i) res.arr ≤ 0
  | [], acc, _, hlen, hkey => by
    simp [compareArrays_self, hlen, hkey]
  | i :: is, acc, his, hlen, hkey => by
    have hi : i ≤ arr.length := his i (List.mem_cons_self _ _)
    have his2 : ∀ j ∈ is, j ≤ arr.length := fun j hj => his j (List.mem_cons_of_mem _ hj)
    have hwin := sliceWindow_double arr i hi
    have hrotlen : (arr.rotate i).length = arr.length := List.length_rotate _ _
    simp only [List.foldl_cons]
    by_cases hc : compareArrays (arr.rotate i) acc.arr > 0
    · have hstep : canonicalStep (arr ++ arr) arr.length acc i =
          ⟨arr.rotate i, joinComma (arr.rotate i)⟩ := by
        simp [canonicalStep, hwin, hc]
      rw [hstep]
      obtain ⟨h1, h2, h3, h4, h5⟩ := canonical_fold arr is
        ⟨arr.rotate i, joinComma (arr.rotate i)⟩ his2 hrotlen rfl
      simp only at h1 h4
      have hacc : compareArrays acc.arr (arr.rotate i) ≤ 0 := by
        have := compareArrays_swap (arr.rotate i) acc.arr (by rw [hrotlen, hlen])
        omega
      refine ⟨?_, h2, h3, ?_, ?_⟩
      · right
        rcases h1 with h1 | ⟨j, hj, h1⟩
        · exact ⟨i, List.mem_cons_self _ _, h1⟩
        · exact ⟨j, List.mem_cons_of_mem _ hj, h1⟩
      · exact compareArrays_trans _ _ _ (by rw [hrotlen, hlen]) (by rw [hrotlen, h3]) hacc h4
      · intro j hj
        rcases List.mem_cons.1 hj with rfl | hj
        · exact h4
        · exact h5 j hj
    · have hstep : canonicalStep (arr ++ arr) arr.length acc i = acc := by
        simp [canonicalStep, hwin, hc]
      rw [hstep]
      obtain ⟨h1, h2, h3, h4, h5⟩ := canonical_fold arr is acc his2 hlen hkey
      refine ⟨?_, h2, h3, h4, ?_⟩
      · rcases h1 with h1 | ⟨j, hj, h1⟩
        · exact Or.inl h1
        · exact Or.inr ⟨j, List.mem_cons_of_mem _ hj, h1⟩
      · intro j hj
        rcases List.mem_cons.1 hj with rfl | hj
        · exact compareArrays_trans _ _ _ (by rw [hrotlen, hlen]) (by rw [hlen, h3])
            (by omega) h4
        · exact h5 j hj

theorem getCanonical_key (arr : List Int) :
    (getCanonical arr).key = joinComma (getCanonical arr).arr := by
  have h := canonical_fold arr (List.range' 1 (arr.length - 1)) ⟨arr, joinComma arr⟩
    (by intro i hi; rw [List.mem_range'_1] at hi; omega) rfl rfl
  exact h.2.1

theorem getCanonical_length (arr : List Int) :
    (getCanonical arr).arr.length = arr.length := by
  have h := canonical_fold arr (List.range' 1 (arr.length - 1)) ⟨arr, joinComma arr⟩
    (by intro i hi; rw [List.mem_range'_1] at hi; omega) rfl rfl
  exact h.2.2.1

theorem getCanonical_rotation (arr : List Int) :
    (arr = [] ∧ (getCanonical arr).arr = []) ∨
      ∃ k, k < arr.length ∧ (getCanonical arr).arr = arr.rotate k := by
  have h := canonical_fold arr (List.range' 1 (arr.length - 1)) ⟨arr, joinComma arr⟩
    (by intro i hi; rw [List.mem_range'_1] at hi; omega) rfl rfl
  have h1 : (getCanonical arr).arr = arr ∨
      ∃ i ∈ List.range' 1 (arr.length - 1), (getCanonical arr).arr = arr.rotate i := h.1
  rcases h1 with h1 | ⟨i, hi, h1⟩
  · rcases arr with _ | ⟨x, xs⟩
    · exact Or.inl ⟨rfl, h1⟩
    · exact Or.inr ⟨0, by simp, by rw [h1, List.rotate_zero]⟩
  · rw [List.mem_range'_1] at hi
    exact Or.inr ⟨i, by omega, h1⟩

theorem getCanonical_max (arr : List Int) (k : Nat) :
    compareArrays (arr.rotate k) (getCanonical arr).arr ≤ 0 := by
  have h := canonical_fold arr (List.range' 1 (arr.length - 1)) ⟨arr, joinComma arr⟩
    (by intro i hi; rw [List.mem_range'_1] at hi; omega) rfl rfl
  obtain ⟨-, -, -, h4, h5⟩ := h
  rcases arr with _ | ⟨x, xs⟩
  · simp [compareArrays]
  · rw [← List.rotate_mod]
    have hlt : k % (x :: xs).length < (x :: xs).length := Nat.mod_lt _ (by simp)
    rcases Nat.eq_zero_or_pos (k % (x :: xs).length) with h0 | hpos
    · rw [h0, List.rotate_zero]; exact h4
    · exact h5 _ (by rw [List.mem_range'_1]; omega)

theorem getCanonical_isRotated (arr : List Int) :
    List.IsRotated arr (getCanonical arr).arr := by
  rcases getCanonical_rotation arr with ⟨h1, h2⟩ | ⟨k, -, h⟩
  · rw [h2, h1]
  · exact ⟨k, h.symm⟩

/-- Rotations of one another have the same canonical array. -/
theorem getCanonical_congr {a b : List Int} (h : List.IsRotated a b) :
    (getCanonical a).arr = (getCanonical b).arr := by
  have hlen : a.length = b.length := h.perm.length_eq
  obtain ⟨i, hi⟩ := (h.symm.trans (getCanonical_isRotated a))
  obtain ⟨j, hj⟩ := (h.trans (getCanonical_isRotated b))
  have h1 := getCanonical_max b i
  have h2 := getCanonical_max a j
  rw [hi] at h1
  rw [hj] at h2
  exact compareArrays_antisymm _ _
    (by rw [getCanonical_length, getCanonical_length, hlen]) h1 h2

theorem getCanonical_idem (arr : List Int) :
    (getCanonical (getCanonical arr).arr).arr = (getCanonical arr).arr :=
  getCanonical_congr (getCanonical_isRotated arr).symm

/-! ## The circular run check -/

theorem zeroRunAt_cons_succ (v : Int) (rest : List Int) (i n : Nat) :
    ZeroRunAt (v :: rest) (i + 1) n ↔ ZeroRunAt rest i n := by
  unfold ZeroRunAt
  constructor
  · intro h j hj
    have := h j hj
    rwa [show i + 1 + j = (i + j) + 1 by omega, List.getElem?_cons_succ] at this
  · intro h j hj
    rw [show i + 1 + j = (i + j) + 1 by omega, List.getElem?_cons_succ]
    exact h j hj

theorem zeroRunAt_cons_zero (v : Int) (rest : List Int) (n : Nat) :
    ZeroRunAt (v :: rest) 0 (n + 1) ↔ v = 0 ∧ ZeroRunAt rest 0 n := by
  unfold ZeroRunAt
  constructor
  · intro h
    refine ⟨by simpa using h 0 (by omega), fun j hj => ?_⟩
    have := h (j + 1) (by omega)
    simpa using this
  · rintro ⟨hv, h⟩ j hj
    rcases j with _ | j
    · simp [hv]
    · have := h j (by omega)
      simpa using this

theorem zeroRunAt_mono {xs : List Int} {i n k : Nat} (h : ZeroRunAt xs i n) (hk : k ≤ n) :
    ZeroRunAt xs i k := fun j hj => h j (by omega)

/-- The scan with counter `c` succeeds exactly when the list starts with the `n - c` zeros
that complete the current run, or holds `n` consecutive zeros somewhere. -/
theorem scanZeros_iff (n : Nat) : ∀ (xs : List Int) (c : Nat), c < n →
    (scanZeros (n : Int) c xs = true ↔ ZeroRunAt xs 0 (n - c) ∨ ∃ i, ZeroRunAt xs i n)
  | [], c, hc => by
    simp only [scanZeros, Bool.false_eq_true, false_iff, not_or, not_exists]
    refine ⟨fun h => ?_, fun i h => ?_⟩
    · have := h 0 (by omega); simp at this
    · have := h 0 (by omega); simp at this
  | v :: rest, c, hc => by
    have hex : (∃ i, ZeroRunAt (v :: rest) i n) ↔
        ZeroRunAt (v :: rest) 0 n ∨ ∃ i, ZeroRunAt rest i n := by
      constructor
      · rintro ⟨i, hi⟩
        rcases i with _ | i
        · exact Or.inl hi
        · exact Or.inr ⟨i, (zeroRunAt_cons_succ v rest i n).1 hi⟩
      · rintro (h | ⟨i, hi⟩)
        · exact ⟨0, h⟩
        · exact ⟨i + 1, (zeroRunAt_cons_succ v rest i n).2 hi⟩
    have hsplit : n - c = (n - c - 1) + 1 := by omega
    have hn : n = (n - 1) + 1 := by omega
    rw [hex, hsplit, zeroRunAt_cons_zero]
    simp only [scanZeros]
    by_cases hv : v = 0
    · simp only [hv, if_true, true_and]
      by_cases hge : ((c + 1 : Nat) : Int) ≥ (n : Int)
      · simp only [hge, if_true, true_iff]
        left
        intro j hj
        have : n - c - 1 = 0 := by omega
        omega
      · simp only [hge, if_false]
        have hc1 : c + 1 < n := by omega
        rw [scanZeros_iff n rest (c + 1) hc1, show n - (c + 1) = n - c - 1 by omega]
        constructor
        · rintro (h | h)
          · exact Or.inl h
          · exact Or.inr (Or.inr h)
        · rintro (h | h | h)
          · exact Or.inl h
          · rw [hn, zeroRunAt_cons_zero] at h
            exact Or.inl (zeroRunAt_mono h.2 (by omega))
          · exact Or.inr h
    · simp only [hv, if_false, false_and, false_or]
      rw [scanZeros_iff n rest 0 (by omega), Nat.sub_zero]
      constructor
      · rintro (h | h)
        · exact Or.inr ⟨0, h⟩
        · exact Or.inr h
      · rintro (h | h)
        · rw [hn, zeroRunAt_cons_zero] at h
          exact absurd h.1 hv
        · exact Or.inr h

theorem scanZeros_zero_iff (n : Nat) (hn : 1 ≤ n) (xs : List Int) :
    scanZeros (n : Int) 0 xs = true ↔ ∃ i, ZeroRunAt xs i n := by
  rw [scanZeros_iff n xs 0 (by omega), Nat.sub_zero]
  constructor
  · rintro (h | h)
    · exact ⟨0, h⟩
    · exact h
  · exact Or.inr

theorem sliceFromZero_ofNat (arr : List Int) (n : Nat) :
    sliceFromZero arr (n : Int) = arr.take n := by
  simp [sliceFromZero]

theorem extended_getElem? (arr : List Int) (n k : Nat) :
    (arr ++ arr.take n)[k]? =
      if k < arr.length + min n arr.length then arr[k % arr.length]? else none := by
  by_cases hk : k < arr.length
  · rw [List.getElem?_append_left hk, Nat.mod_eq_of_lt hk, if_pos (by omega)]
  · have hk2 : arr.length ≤ k := by omega
    rw [List.getElem?_append_right hk2, List.getElem?_take]
    by_cases h1 : k < arr.length + min n arr.length
    · have h2 : k - arr.length < n := by omega
      have h3 : k - arr.length < arr.length := by omega
      rw [if_pos h1, if_pos h2, Nat.mod_eq_sub_mod hk2, Nat.mod_eq_of_lt h3]
    · rw [if_neg h1]
      by_cases h2 : k - arr.length < n
      · rw [if_pos h2]
        exact List.getElem?_eq_none (by omega)
      · rw [if_neg h2]

theorem circularRun_all_zero {arr : List Int} {n : Nat} (h : CircularRun arr n)
    (hn : arr.length < n) (k : Nat) : arr[k % arr.length]? = some 0 := by
  obtain ⟨i, hi, hrun⟩ := h
  have hjlt : (k % arr.length + arr.length - i) % arr.length < arr.length :=
    Nat.mod_lt _ (by omega)
  have := hrun ((k % arr.length + arr.length - i) % arr.length) (by omega)
  rw [Nat.add_mod_mod, show i + (k % arr.length + arr.length - i) = k % arr.length + arr.length
    by omega, Nat.add_mod_right, Nat.mod_mod] at this
  exact this

/-- For a threshold `n ≥ 1` the check fires exactly on a circular run of `n` zeros,
provided `n` is at most twice the length (the extended array is at most that long). -/
theorem failsZeroConstraint_ofNat_iff (arr : List Int) (n : Nat) (hn : 1 ≤ n) :
    failsZeroConstraint arr (n : Int) = true ↔ n ≤ 2 * arr.length ∧ CircularRun arr n := by
  unfold failsZeroConstraint
  simp only [sliceFromZero_ofNat]
  rw [scanZeros_zero_iff n hn]
  constructor
  · rintro ⟨i, hi⟩
    have hlast := hi (n - 1) (by omega)
    rw [extended_getElem?] at hlast
    split_ifs at hlast with hb
    have hpos : 0 < arr.length := by
      rcases Nat.eq_zero_or_pos arr.length with h0 | h0
      · rw [h0] at hb; simp at hb
      · exact h0
    refine ⟨by omega, i % arr.length, Nat.mod_lt _ hpos, fun j hj => ?_⟩
    have := hi j hj
    rw [extended_getElem?] at this
    split_ifs at this with hb2
    rwa [Nat.mod_add_mod]
  · rintro ⟨h2, hrun⟩
    by_cases hle : n ≤ arr.length
    · obtain ⟨i, hi, hrun⟩ := hrun
      refine ⟨i, fun j hj => ?_⟩
      rw [extended_getElem?, if_pos (by omega)]
      exact hrun j hj
    · refine ⟨0, fun j hj => ?_⟩
      rw [extended_getElem?, if_pos (by omega)]
      exact circularRun_all_zero hrun (by omega) _

theorem circularRun_of_rotate {arr : List Int} {n r : Nat}
    (h : CircularRun (arr.rotate r) n) : CircularRun arr n := by
  obtain ⟨i, hi, hrun⟩ := h
  rw [List.length_rotate] at hi hrun
  refine ⟨(i + r) % arr.length, Nat.mod_lt _ (by omega), fun j hj => ?_⟩
  have := hrun j hj
  rw [List.getElem?_rotate (Nat.mod_lt _ (by omega)), Nat.mod_add_mod] at this
  rw [Nat.mod_add_mod, show i + r + j = i + j + r by omega]
  exact this

theorem circularRun_congr {a b : List Int} (h : List.IsRotated a b) (n : Nat) :
    CircularRun a n ↔ CircularRun b n := by
  constructor
  · intro ha
    obtain ⟨r, hr⟩ := h.symm
    rw [← hr] at ha
    exact circularRun_of_rotate ha
  · intro hb
    obtain ⟨r, hr⟩ := h
    rw [← hr] at hb
    exact circularRun_of_rotate hb

/-- The check gives the same answer on every rotation of an array, for every `m ≥ 1`. -/
theorem failsZeroConstraint_congr {a b : List Int} (h : List.IsRotated a b) (m : Int)
    (hm : 1 ≤ m) : failsZeroConstraint a m = failsZeroConstraint b m := by
  obtain ⟨n, rfl⟩ : ∃ n : Nat, m = (n : Int) := ⟨m.toNat, by omega⟩
  have hn : 1 ≤ n := by omega
  have hlen : a.length = b.length := h.perm.length_eq
  have hiff : failsZeroConstraint a (n : Int) = true ↔ failsZeroConstraint b (n : Int) = true := by
    rw [failsZeroConstraint_ofNat_iff a n hn, failsZeroConstraint_ofNat_iff b n hn, hlen,
      circularRun_congr h n]
  cases ha : failsZeroConstraint a (n : Int) <;> cases hb : failsZeroConstraint b (n : Int) <;>
    simp_all

/-! ## The key `arr.join(',')` determines the array -/

theorem digitChar_value : ∀ k, k < 10 → (Nat.digitChar k).toNat - 48 = k := by decide

theorem digitChar_plain : ∀ k, k < 10 → Nat.digitChar k ≠ ',' ∧ Nat.digitChar k ≠ '-' := by
  decide

theorem toDigitsCore_append (fuel : Nat) : ∀ (n : Nat) (ds : List Char),
    Nat.toDigitsCore 10 fuel n ds = Nat.toDigitsCore 10 fuel n [] ++ ds := by
  induction fuel with
  | zero => intro n ds; simp [Nat.toDigitsCore]
  | succ fuel ih =>
    intro n ds
    simp only [Nat.toDigitsCore]
    split_ifs with h
    · simp
    · rw [ih (n / 10) (Nat.digitChar (n % 10) :: ds), ih (n / 10) [Nat.digitChar (n % 10)]]
      simp

theorem toDigitsCore_spec (fuel : Nat) : ∀ (n : Nat), n < fuel →
    digitsValue (Nat.toDigitsCore 10 fuel n []) = n ∧
    Nat.toDigitsCore 10 fuel n [] ≠ [] ∧
    ∀ c ∈ Nat.toDigitsCore 10 fuel n [], c ≠ ',' ∧ c ≠ '-' := by
  induction fuel with
  | zero => intro n hn; omega
  | succ fuel ih =>
    intro n hn
    have hmod : n % 10 < 10 := Nat.mod_lt _ (by omega)
    simp only [Nat.toDigitsCore]
    split_ifs with h
    · refine ⟨?_, by simp, ?_⟩
      · simp only [digitsValue, List.foldl_cons, List.foldl_nil, digitChar_value _ hmod]
        omega
      · intro c hc
        rw [List.mem_singleton] at hc
        rw [hc]
        exact digitChar_plain _ hmod
    · have hlt : n / 10 < fuel := by omega
      obtain ⟨h1, h2, h3⟩ := ih (n / 10) hlt
      rw [toDigitsCore_append]
      refine ⟨?_, by simp, ?_⟩
      · unfold digitsValue at h1 ⊢
        rw [List.foldl_append, h1]
        simp only [List.foldl_cons, List.foldl_nil, digitChar_value _ hmod]
        omega
      · intro c hc
        rcases List.mem_append.1 hc with hc | hc
        · exact h3 c hc
        · rw [List.mem_singleton] at hc
          rw [hc]
          exact digitChar_plain _ hmod

theorem intChars_ofNat (n : Nat) : intChars (Int.ofNat n) = Nat.toDigits 10 n := rfl

theorem intChars_negSucc (n : Nat) :
    intChars (Int.negSucc n) = '-' :: Nat.toDigits 10 (n + 1) := rfl

theorem toDigits_value (n : Nat) : digitsValue (Nat.toDigits 10 n) = n :=
  (toDigitsCore_spec (n + 1) n (by omega)).1

theorem toDigits_ne_nil (n : Nat) : Nat.toDigits 10 n ≠ [] :=
  (toDigitsCore_spec (n + 1) n (by omega)).2.1

theorem toDigits_plain (n : Nat) : ∀ c ∈ Nat.toDigits 10 n, c ≠ ',' ∧ c ≠ '-' :=
  (toDigitsCore_spec (n + 1) n (by omega)).2.2

theorem intChars_ne_nil (x : Int) : intChars x ≠ [] := by
  cases x with
  | ofNat n => rw [intChars_ofNat]; exact toDigits_ne_nil n
  | negSucc n => rw [intChars_negSucc]; simp

theorem intChars_no_comma (x : Int) : ∀ c ∈ intChars x, c ≠ ',' := by
  cases x with
  | ofNat n => rw [intChars_ofNat]; exact fun c hc => (toDigits_plain n c hc).1
  | negSucc n =>
    rw [intChars_negSucc]
    intro c hc
    rcases List.mem_cons.1 hc with rfl | hc
    · decide
    · exact (toDigits_plain _ c hc).1

theorem intChars_injective {x y : Int} (h : intChars x = intChars y) : x = y := by
  cases x with
  | ofNat n =>
    cases y with
    | ofNat k =>
      rw [intChars_ofNat, intChars_ofNat] at h
      have := congrArg digitsValue h
      rw [toDigits_value, toDigits_value] at this
      rw [this]
    | negSucc k =>
      rw [intChars_ofNat, intChars_negSucc] at h
      have hmem : '-' ∈ Nat.toDigits 10 n := by rw [h]; exact List.mem_cons_self _ _
      exact absurd rfl (toDigits_plain n _ hmem).2
  | negSucc n =>
    cases y with
    | ofNat k =>
      rw [intChars_ofNat, intChars_negSucc] at h
      have hmem : '-' ∈ Nat.toDigits 10 k := by rw [← h]; exact List.mem_cons_self _ _
      exact absurd rfl (toDigits_plain k _ hmem).2
    | negSucc k =>
      rw [intChars_negSucc, intChars_negSucc] at h
      have := congrArg digitsValue (List.cons_injective h)
      rw [toDigits_value, toDigits_value] at this
      have hnk : n = k := by omega
      rw [hnk]

theorem joinComma_data_cons (x : Int) (rest : List Int) :
    (joinComma (x :: rest)).data = intChars x ++ keyTail rest := by
  cases rest with
  | nil => simp [joinComma, keyTail, intChars]
  | cons y ys => simp [joinComma, keyTail, intChars]

theorem keyTail_shape (rest : List Int) :
    keyTail rest = [] ∨ ∃ t, keyTail rest = ',' :: t := by
  unfold keyTail
  split_ifs
  · exact Or.inl rfl
  · exact Or.inr ⟨_, rfl⟩

/-- Two comma-free words followed by comma-led (or empty) tails agree only piecewise. -/
theorem split_at_comma : ∀ (a b s t : List Char),
    (∀ c ∈ a, c ≠ ',') → (∀ c ∈ b, c ≠ ',') →
    (s = [] ∨ ∃ u, s = ',' :: u) → (t = [] ∨ ∃ u, t = ',' :: u) →
    a ++ s = b ++ t → a = b ∧ s = t
  | [], [], _, _, _, _, _, _, h => ⟨rfl, by simpa using h⟩
  | [], c :: b, s, t, _, hb, hs, _, h => by
    exfalso
    rcases hs with rfl | ⟨u, rfl⟩
    · simp at h
    · simp only [List.nil_append, List.cons_append, List.cons.injEq] at h
      exact hb c (List.mem_cons_self _ _) h.1.symm
  | c :: a, [], s, t, ha, _, _, ht, h => by
    exfalso
    rcases ht with rfl | ⟨u, rfl⟩
    · simp at h
    · simp only [List.nil_append, List.cons_append, List.cons.injEq] at h
      exact ha c (List.mem_cons_self _ _) h.1
  | c :: a, d :: b, s, t, ha, hb, hs, ht, h => by
    simp only [List.cons_append, List.cons.injEq] at h
    obtain ⟨h1, h2⟩ := split_at_comma a b s t
      (fun x hx => ha x (List.mem_cons_of_mem _ hx))
      (fun x hx => hb x (List.mem_cons_of_mem _ hx)) hs ht h.2
    exact ⟨by rw [h.1, h1], h2⟩

theorem joinComma_data_injective : ∀ (xs ys : List Int),
    (joinComma xs).data = (joinComma ys).data → xs = ys
  | [], [], _ => rfl
  | [], y :: ys, h => by
    exfalso
    rw [joinComma_data_cons] at h
    have : intChars y = [] := by
      have h2 := h.symm
      simp only [joinComma, List.append_eq_nil] at h2
      exact h2.1
    exact intChars_ne_nil y this
  | x :: xs, [], h => by
    exfalso
    rw [joinComma_data_cons] at h
    have : intChars x = [] := by
      simp only [joinComma, List.append_eq_nil] at h
      exact h.1
    exact intChars_ne_nil x this
  | x :: xs, y :: ys, h => by
    rw [joinComma_data_cons, joinComma_data_cons] at h
    obtain ⟨h1, h2⟩ := split_at_comma _ _ _ _ (intChars_no_comma x) (intChars_no_comma y)
      (keyTail_shape xs) (keyTail_shape ys) h
    have hxy := intChars_injective h1
    have hrest : xs = ys := by
      unfold keyTail at h2
      by_cases hx : xs = []
      · by_cases hy : ys = []
        · rw [hx, hy]
        · simp [hx, hy] at h2
      · by_cases hy : ys = []
        · simp [hx, hy] at h2
        · simp only [hx, hy, if_false, List.cons.injEq, true_and] at h2
          exact joinComma_data_injective xs ys h2
    rw [hxy, hrest]

/-- Equal keys come from equal arrays. -/
theorem joinComma_injective {xs ys : List Int} (h : joinComma xs = joinComma ys) : xs = ys :=
  joinComma_data_injective xs ys (congrArg String.data h)

/-! ## The search state -/

theorem foldl_add_eq (xs : List Int) : ∀ a : Int, xs.foldl (fun a b => a + b) a = a + xs.sum := by
  induction xs with
  | nil => intro a; simp
  | cons x xs ih => intro a; simp only [List.foldl_cons, List.sum_cons, ih]; omega

theorem sumArr_eq_sum (xs : List Int) : sumArr xs = xs.sum := by
  unfold sumArr
  rw [foldl_add_eq]
  omega

theorem stateOK_init (Q : List Int → Prop) : StateOK Q ⟨[], []⟩ :=
  ⟨rfl, List.nodup_nil, fun _ h => by simp at h⟩

theorem record_ok {Q : List Int → Prop} {st : SearchState} (current : List Int)
    (hst : StateOK Q st) (hQ : Q (getCanonical current).arr) : StateOK Q (record current st) := by
  unfold record
  simp only
  split_ifs with hmem
  · exact hst
  · refine ⟨?_, ?_, ?_⟩
    · simp [hst.keys, getCanonical_key]
    · have hnot : (getCanonical current).arr ∉ st.validNecklaces := by
        intro h
        apply hmem
        rw [hst.keys, getCanonical_key]
        exact List.mem_map_of_mem _ h
      simp only
      rw [List.nodup_append]
      refine ⟨hst.nodup, List.nodup_singleton _, ?_⟩
      intro a ha hb
      rw [List.mem_singleton] at hb
      exact hnot (hb ▸ ha)
    · intro arr harr
      simp only [List.mem_append, List.mem_singleton] at harr
      rcases harr with h | h
      · exact hst.sound arr h
      · rw [h]; exact hQ

theorem record_results_subset (current : List Int) (st : SearchState) :
    ∀ k ∈ st.results, k ∈ (record current st).results := by
  intro k hk
  unfold record
  simp only
  split_ifs
  · exact hk
  · exact List.mem_append_left _ hk

theorem record_key_mem (current : List Int) (st : SearchState) :
    (getCanonical current).key ∈ (record current st).results := by
  unfold record
  simp only
  split_ifs with h
  · exact h
  · simp

theorem backtrackBinary_ok (l : Nat) (p m : Int) : ∀ (remaining : Nat) (current : List Int)
    (st : SearchState), current.length + remaining = l → (∀ x ∈ current, IsBit x) →
    StateOK (FromLeaf IsBit l p m) st →
    StateOK (FromLeaf IsBit l p m) (backtrackBinary p m remaining current st)
  | 0, current, st, hlen, hdom, hst => by
    simp only [backtrackBinary]
    split_ifs with h1 h2
    · exact hst
    · exact hst
    · refine record_ok current hst ⟨current, by omega, hdom, ?_, by simpa using h2, rfl⟩
      rw [← sumArr_eq_sum]
      exact not_not.1 h1
  | remaining + 1, current, st, hlen, hdom, hst => by
    simp only [backtrackBinary]
    split_ifs with h1 h2
    · exact hst
    · exact hst
    · have hdom1 : ∀ x ∈ current ++ [1], IsBit x := by
        intro x hx
        rcases List.mem_append.1 hx with hx | hx
        · exact hdom x hx
        · rw [List.mem_singleton] at hx; exact Or.inr hx
      have hdom0 : ∀ x ∈ current ++ [0], IsBit x := by
        intro x hx
        rcases List.mem_append.1 hx with hx | hx
        · exact hdom x hx
        · rw [List.mem_singleton] at hx; exact Or.inl hx
      exact backtrackBinary_ok l p m remaining (current ++ [0]) _
        (by rw [List.length_append, List.length_singleton]; omega) hdom0
        (backtrackBinary_ok l p m remaining (current ++ [1]) st
          (by rw [List.length_append, List.length_singleton]; omega) hdom1 hst)

theorem mem_countdown {r v : Int} : v ∈ countdown r ↔ 0 ≤ v ∧ v ≤ r := by
  unfold countdown
  simp only [List.mem_reverse, List.mem_map, List.mem_range]
  constructor
  · rintro ⟨k, hk, rfl⟩
    omega
  · rintro ⟨h0, hr⟩
    exact ⟨v.toNat, by omega, by omega⟩

theorem foldl_invariant {α β : Type} (P : β → Prop) (f : β → α → β) :
    ∀ (vs : List α) (acc : β), P acc → (∀ b, ∀ v ∈ vs, P b → P (f b v)) → P (vs.foldl f acc)
  | [], _, h, _ => h
  | v :: vs, acc, h, hstep => by
    rw [List.foldl_cons]
    exact foldl_invariant P f vs (f acc v) (hstep acc v (List.mem_cons_self _ _) h)
      (fun b w hw hb => hstep b w (List.mem_cons_of_mem _ hw) hb)

theorem backtrackGeneral_ok (l : Nat) (p m : Int) : ∀ (remaining : Nat) (current : List Int)
    (st : SearchState), current.length + remaining = l → (∀ x ∈ current, IsNonneg x) →
    StateOK (FromLeaf IsNonneg l p m) st →
    StateOK (FromLeaf IsNonneg l p m) (backtrackGeneral p m remaining current st)
  | 0, current, st, hlen, hdom, hst => by
    simp only [backtrackGeneral]
    split_ifs with h1 h2
    · exact hst
    · refine record_ok current hst ⟨current, by omega, hdom, ?_, by simpa using h2, rfl⟩
      rw [← sumArr_eq_sum]
      exact h1
    · exact hst
  | remaining + 1, current, st, hlen, hdom, hst => by
    simp only [backtrackGeneral]
    apply foldl_invariant (StateOK (FromLeaf IsNonneg l p m)) _ _ _ hst
    intro b v hv hb
    have hdomv : ∀ x ∈ current ++ [v], IsNonneg x := by
      intro x hx
      rcases List.mem_append.1 hx with hx | hx
      · exact hdom x hx
      · rw [List.mem_singleton] at hx
        rw [hx]
        exact (mem_countdown.1 hv).1
    exact backtrackGeneral_ok l p m remaining (current ++ [v]) b
      (by rw [List.length_append, List.length_singleton]; omega) hdomv hb

/-! ## Sorting -/

theorem descOrder_trans {a b c : List Int} (hab : a.length = b.length)
    (hbc : b.length = c.length) (h1 : descOrder a b) (h2 : descOrder b c) : descOrder a c :=
  compareArrays_trans c b a hbc.symm hab.symm h2 h1

theorem orderedInsert_sorted (l : Nat) (a : List Int) (ha : a.length = l) :
    ∀ xs : List (List Int), (∀ x ∈ xs, x.length = l) → xs.Pairwise descOrder →
    (xs.orderedInsert descOrder a).Pairwise descOrder
  | [], _, _ => by simp
  | b :: xs, hlen, hsorted => by
    have hb : b.length = l := hlen b (List.mem_cons_self _ _)
    have hxs : ∀ x ∈ xs, x.length = l := fun x hx => hlen x (List.mem_cons_of_mem _ hx)
    rw [List.pairwise_cons] at hsorted
    simp only [List.orderedInsert]
    split_ifs with h
    · rw [List.pairwise_cons]
      refine ⟨?_, List.pairwise_cons.2 hsorted⟩
      intro x hx
      rcases List.mem_cons.1 hx with rfl | hx
      · exact h
      · exact descOrder_trans (by rw [ha, hb]) (by rw [hb, hxs x hx]) h (hsorted.1 x hx)
    · rw [List.pairwise_cons]
      refine ⟨?_, orderedInsert_sorted l a ha xs hxs hsorted.2⟩
      intro x hx
      rcases (List.mem_orderedInsert descOrder).1 hx with rfl | hx
      · rcases compareArrays_total x b (by rw [ha, hb]) with h2 | h2
        · exact h2
        · exact absurd h2 h
      · exact hsorted.1 x hx

theorem sortDescending_sorted (l : Nat) : ∀ xs : List (List Int),
    (∀ x ∈ xs, x.length = l) → (sortDescending xs).Pairwise descOrder
  | [], _ => by simp [sortDescending]
  | a :: xs, hlen => by
    have hxs : ∀ x ∈ xs, x.length = l := fun x hx => hlen x (List.mem_cons_of_mem _ hx)
    simp only [sortDescending, List.insertionSort]
    apply orderedInsert_sorted l a (hlen a (List.mem_cons_self _ _))
    · intro x hx
      exact hxs x ((List.mem_insertionSort descOrder).1 hx)
    · exact sortDescending_sorted l xs hxs

theorem sortDescending_perm (xs : List (List Int)) : List.Perm (sortDescending xs) xs :=
  List.perm_insertionSort descOrder xs

theorem mem_sortDescending {xs : List (List Int)} {a : List Int} :
    a ∈ sortDescending xs ↔ a ∈ xs :=
  (sortDescending_perm xs).mem_iff

/-- On distinct arrays of one length, sorted by the comparator means strictly descending. -/
theorem sortDescending_strict (l : Nat) (xs : List (List Int))
    (hlen : ∀ x ∈ xs, x.length = l) (hnodup : xs.Nodup) :
    (sortDescending xs).Pairwise (fun a b => compareArrays a b > 0) := by
  have h1 := sortDescending_sorted l xs hlen
  have h2 : (sortDescending xs).Nodup := (sortDescending_perm xs).nodup_iff.2 hnodup
  have h3 := List.Pairwise.and_mem.1 (h1.and h2)
  refine h3.imp ?_
  rintro a b ⟨ha, hb, hab, hne⟩
  have hla : a.length = l := hlen a (mem_sortDescending.1 ha)
  have hlb : b.length = l := hlen b (mem_sortDescending.1 hb)
  have hswap := compareArrays_swap a b (by rw [hla, hlb])
  have hne0 : compareArrays a b ≠ 0 := fun h0 =>
    hne (compareArrays_eq_zero a b (by rw [hla, hlb]) h0)
  unfold descOrder at hab
  omega

/-! ## What the solvers return -/

theorem fromLeaf_length {Dom : Int → Prop} {l : Nat} {p m : Int} {arr : List Int}
    (h : FromLeaf Dom l p m arr) : arr.length = l := by
  obtain ⟨s, hlen, -, -, -, rfl⟩ := h
  rw [getCanonical_length, hlen]

theorem fromLeaf_dom {Dom : Int → Prop} {l : Nat} {p m : Int} {arr : List Int}
    (h : FromLeaf Dom l p m arr) : ∀ x ∈ arr, Dom x := by
  obtain ⟨s, -, hdom, -, -, rfl⟩ := h
  intro x hx
  exact hdom x ((getCanonical_isRotated s).mem_iff.2 hx)

theorem fromLeaf_sum {Dom : Int → Prop} {l : Nat} {p m : Int} {arr : List Int}
    (h : FromLeaf Dom l p m arr) : arr.sum = p := by
  obtain ⟨s, -, -, hsum, -, rfl⟩ := h
  rw [← hsum]
  exact (getCanonical_isRotated s).perm.symm.sum_eq

theorem fromLeaf_passes {Dom : Int → Prop} {l : Nat} {p m : Int} {arr : List Int}
    (h : FromLeaf Dom l p m arr) (hm : 1 ≤ m) : failsZeroConstraint arr m = false := by
  obtain ⟨s, -, -, -, hpass, rfl⟩ := h
  rw [← failsZeroConstraint_congr (getCanonical_isRotated s) m hm]
  exact hpass

theorem fromLeaf_canonical {Dom : Int → Prop} {l : Nat} {p m : Int} {arr : List Int}
    (h : FromLeaf Dom l p m arr) : (getCanonical arr).arr = arr := by
  obtain ⟨s, -, -, -, -, rfl⟩ := h
  exact getCanonical_idem s

theorem solveBinary_stateOK (l : Nat) (p m : Int) :
    StateOK (FromLeaf IsBit l p m) (backtrackBinary p m l [] ⟨[], []⟩) :=
  backtrackBinary_ok l p m l [] _ (by simp) (by simp) (stateOK_init _)

theorem solveGeneral_stateOK (l : Nat) (p m : Int) :
    StateOK (FromLeaf IsNonneg l p m) (backtrackGeneral p m l [] ⟨[], []⟩) :=
  backtrackGeneral_ok l p m l [] _ (by simp) (by simp) (stateOK_init _)

theorem solveBinary_fromLeaf {l : Nat} {p m : Int} {r : List Int}
    (h : r ∈ solveBinary l p m) : FromLeaf IsBit l p m r :=
  (solveBinary_stateOK l p m).sound r (mem_sortDescending.1 h)

theorem solveGeneral_fromLeaf {l : Nat} {p m : Int} {r : List Int}
    (h : r ∈ solveGeneral l p m) : FromLeaf IsNonneg l p m r :=
  (solveGeneral_stateOK l p m).sound r (mem_sortDescending.1 h)

theorem solveBinary_nodup (l : Nat) (p m : Int) : (solveBinary l p m).Nodup :=
  (sortDescending_perm _).nodup_iff.2 (solveBinary_stateOK l p m).nodup

theorem solveGeneral_nodup (l : Nat) (p m : Int) : (solveGeneral l p m).Nodup :=
  (sortDescending_perm _).nodup_iff.2 (solveGeneral_stateOK l p m).nodup

theorem mem_binaryMode {l : Nat} {p m : Int} {r : List Int} (h : r ∈ binaryMode l p m) :
    r ∈ solveBinary l p m := by
  unfold binaryMode at h
  split_ifs at h
  · exact h
  · simp at h

/-! ## Completeness of the two searches -/

theorem backtrackBinary_results_mono (p m : Int) (k : String) : ∀ (remaining : Nat)
    (current : List Int) (st : SearchState), k ∈ st.results →
    k ∈ (backtrackBinary p m remaining current st).results
  | 0, current, st, h => by
    simp only [backtrackBinary]
    split_ifs
    · exact h
    · exact h
    · exact record_results_subset current st k h
  | remaining + 1, current, st, h => by
    simp only [backtrackBinary]
    split_ifs
    · exact h
    · exact h
    · exact backtrackBinary_results_mono p m k remaining _ _
        (backtrackBinary_results_mono p m k remaining _ _ h)

theorem backtrackGeneral_results_mono (p m : Int) (k : String) : ∀ (remaining : Nat)
    (current : List Int) (st : SearchState), k ∈ st.results →
    k ∈ (backtrackGeneral p m remaining current st).results
  | 0, current, st, h => by
    simp only [backtrackGeneral]
    split_ifs
    · exact h
    · exact record_results_subset current st k h
    · exact h
  | remaining + 1, current, st, h => by
    simp only [backtrackGeneral]
    apply foldl_invariant (fun st : SearchState => k ∈ st.results) _ _ _ h
    intro b v _ hb
    exact backtrackGeneral_results_mono p m k remaining _ _ hb

theorem sum_bits_bounds : ∀ rest : List Int, (∀ x ∈ rest, IsBit x) →
    0 ≤ rest.sum ∧ rest.sum ≤ (rest.length : Int)
  | [], _ => by simp
  | x :: rest, h => by
    have ih := sum_bits_bounds rest (fun y hy => h y (List.mem_cons_of_mem _ hy))
    have hx : x = 0 ∨ x = 1 := h x (List.mem_cons_self _ _)
    simp only [List.sum_cons, List.length_cons, Nat.cast_add, Nat.cast_one]
    omega

theorem sum_nonneg_of_nonneg : ∀ rest : List Int, (∀ x ∈ rest, IsNonneg x) → 0 ≤ rest.sum
  | [], _ => by simp
  | x :: rest, h => by
    have ih := sum_nonneg_of_nonneg rest (fun y hy => h y (List.mem_cons_of_mem _ hy))
    have hx : 0 ≤ x := h x (List.mem_cons_self _ _)
    simp only [List.sum_cons]
    omega

/-- Every complete binary candidate extending `current` that passes the leaf tests is
reached: neither pruning test cuts it off. -/
theorem backtrackBinary_complete (p m : Int) : ∀ (remaining : Nat) (current : List Int)
    (st : SearchState) (rest : List Int), rest.length = remaining → (∀ x ∈ rest, IsBit x) →
    (current ++ rest).sum = p → failsZeroConstraint (current ++ rest) m = false →
    (getCanonical (current ++ rest)).key ∈ (backtrackBinary p m remaining current st).results
  | 0, current, st, rest, hlen, _, hsum, hpass => by
    have hrest : rest = [] := List.length_eq_zero.1 hlen
    subst hrest
    rw [List.append_nil] at hsum hpass ⊢
    simp only [backtrackBinary]
    rw [if_neg (by rw [sumArr_eq_sum]; exact not_not.2 hsum), if_neg (by simp [hpass])]
    exact record_key_mem current st
  | remaining + 1, current, st, rest, hlen, hdom, hsum, hpass => by
    rcases rest with _ | ⟨x, rest⟩
    · simp at hlen
    have hlen2 : rest.length = remaining := by simpa using hlen
    have hdom2 : ∀ y ∈ rest, IsBit y := fun y hy => hdom y (List.mem_cons_of_mem _ hy)
    have hbnd := sum_bits_bounds rest hdom2
    have hx : x = 0 ∨ x = 1 := hdom x (List.mem_cons_self _ _)
    have hsum2 : current.sum + (x + rest.sum) = p := by
      simpa [List.sum_append, List.sum_cons] using hsum
    have happ : current ++ x :: rest = (current ++ [x]) ++ rest := by simp
    simp only [backtrackBinary]
    rw [if_neg (by rw [sumArr_eq_sum]; push_cast; omega),
      if_neg (by rw [sumArr_eq_sum]; omega)]
    rw [happ] at hsum hpass ⊢
    rcases hx with rfl | rfl
    · exact backtrackBinary_complete p m remaining (current ++ [0]) _ rest hlen2 hdom2 hsum hpass
    · exact backtrackBinary_results_mono p m _ remaining _ _
        (backtrackBinary_complete p m remaining (current ++ [1]) st rest hlen2 hdom2 hsum hpass)

theorem foldl_reaches {α β : Type} (P : β → Prop) (f : β → α → β) (x : α)
    (hx : ∀ b, P (f b x)) (hmono : ∀ b v, P b → P (f b v)) :
    ∀ (vs : List α) (acc : β), x ∈ vs → P (vs.foldl f acc)
  | [], _, h => by simp at h
  | v :: vs, acc, h => by
    rw [List.foldl_cons]
    rcases List.mem_cons.1 h with rfl | h
    · exact foldl_invariant P f vs _ (hx acc) (fun b w _ hb => hmono b w hb)
    · exact foldl_reaches P f x hx hmono vs _ h

/-- Every complete candidate with non-negative entries extending `current` that passes
the leaf tests is reached: the cap `p - currentSum` on a slot excludes none of them. -/
theorem backtrackGeneral_complete (p m : Int) : ∀ (remaining : Nat) (current : List Int)
    (st : SearchState) (rest : List Int), rest.length = remaining →
    (∀ x ∈ rest, IsNonneg x) →
    (current ++ rest).sum = p → failsZeroConstraint (current ++ rest) m = false →
    (getCanonical (current ++ rest)).key ∈ (backtrackGeneral p m remaining current st).results
  | 0, current, st, rest, hlen, _, hsum, hpass => by
    have hrest : rest = [] := List.length_eq_zero.1 hlen
    subst hrest
    rw [List.append_nil] at hsum hpass ⊢
    simp only [backtrackGeneral]
    rw [if_pos (by rw [sumArr_eq_sum]; exact hsum), if_neg (by simp [hpass])]
    exact record_key_mem current st
  | remaining + 1, current, st, rest, hlen, hdom, hsum, hpass => by
    rcases rest with _ | ⟨x, rest⟩
    · simp at hlen
    have hlen2 : rest.length = remaining := by simpa using hlen
    have hdom2 : ∀ y ∈ rest, IsNonneg y := fun y hy => hdom y (List.mem_cons_of_mem _ hy)
    have hbnd := sum_nonneg_of_nonneg rest hdom2
    have hx : 0 ≤ x := hdom x (List.mem_cons_self _ _)
    have hsum2 : current.sum + (x + rest.sum) = p := by
      simpa [List.sum_append, List.sum_cons] using hsum
    have happ : current ++ x :: rest = (current ++ [x]) ++ rest := by simp
    have hmem : x ∈ countdown (p - sumArr current) := by
      rw [mem_countdown, sumArr_eq_sum]
      omega
    simp only [backtrackGeneral]
    rw [happ] at hsum hpass ⊢
    exact foldl_reaches
      (fun st : SearchState => (getCanonical (current ++ [x] ++ rest)).key ∈ st.results)
      (fun acc v => backtrackGeneral p m remaining (current ++ [v]) acc) x
      (fun b => backtrackGeneral_complete p m remaining (current ++ [x]) b rest hlen2 hdom2
        hsum hpass)
      (fun b v hb => backtrackGeneral_results_mono p m _ remaining _ _ hb) _ st hmem

theorem mem_of_key_mem {Q : List Int → Prop} {st : SearchState} (hst : StateOK Q st)
    {arr : List Int} (h : joinComma arr ∈ st.results) : arr ∈ st.validNecklaces := by
  rw [hst.keys, List.mem_map] at h
  obtain ⟨arr2, hmem, hkey⟩ := h
  rw [← joinComma_injective hkey]
  exact hmem

theorem solveBinary_complete (l : Nat) (p m : Int) (s : List Int) (hlen : s.length = l)
    (hdom : ∀ x ∈ s, IsBit x) (hsum : s.sum = p) (hpass : failsZeroConstraint s m = false) :
    (getCanonical s).arr ∈ solveBinary l p m := by
  have h := backtrackBinary_complete p m l [] ⟨[], []⟩ s hlen hdom
    (by simpa using hsum) (by simpa using hpass)
  rw [List.nil_append, getCanonical_key] at h
  exact mem_sortDescending.2 (mem_of_key_mem (solveBinary_stateOK l p m) h)

theorem solveGeneral_complete (l : Nat) (p m : Int) (s : List Int) (hlen : s.length = l)
    (hdom : ∀ x ∈ s, IsNonneg x) (hsum : s.sum = p)
    (hpass : failsZeroConstraint s m = false) :
    (getCanonical s).arr ∈ solveGeneral l p m := by
  have h := backtrackGeneral_complete p m l [] ⟨[], []⟩ s hlen hdom
    (by simpa using hsum) (by simpa using hpass)
  rw [List.nil_append, getCanonical_key] at h
  exact mem_sortDescending.2 (mem_of_key_mem (solveGeneral_stateOK l p m) h)

theorem backtrackBinary_infeasible (l : Nat) (p m : Int) (h : (l : Int) < p)
    (st : SearchState) : backtrackBinary p m l [] st = st := by
  cases l with
  | zero =>
    have hne : sumArr [] ≠ p := by
      rw [sumArr_eq_sum]
      simp only [List.sum_nil]
      simp only [Nat.cast_zero] at h
      omega
    simp only [backtrackBinary, if_pos hne]
  | succ n =>
    have hlt : sumArr [] + ((n + 1 : Nat) : Int) < p := by
      rw [sumArr_eq_sum]
      simp only [List.sum_nil]
      omega
    simp only [backtrackBinary, if_pos hlt]

theorem no_rotations_of_canonical (res : List (List Int)) (hnodup : res.Nodup)
    (hcanon : ∀ r ∈ res, (getCanonical r).arr = r) (i j : Nat) (hi : i < res.length)
    (hj : j < res.length) (hij : i ≠ j) (k : Nat) : res[i] ≠ (res[j]).rotate k := by
  intro heq
  have hrot : List.IsRotated res[j] res[i] := ⟨k, heq.symm⟩
  have h1 := getCanonical_congr hrot
  rw [hcanon _ (List.getElem_mem _), hcanon _ (List.getElem_mem _)] at h1
  exact hij ((hnodup.getElem_inj_iff).1 h1.symm)

/-! ## The claims -/

/-- C1: every sequence in the list returned by binary mode (the guard `p <= l` of the
handler followed by `solveBinary`) and every sequence in the list returned by
`solveGeneral` has length exactly `l`, only non-negative entries, and entries summing to
exactly `p`.  (Holds for all integers `p` and `m`.) -/
theorem result_shape (l : Nat) (p m : Int) (r : List Int)
    (h : r ∈ binaryMode l p m ∨ r ∈ solveGeneral l p m) :
    r.length = l ∧ (∀ x ∈ r, 0 ≤ x) ∧ r.sum = p := by
  rcases h with h | h
  · have hleaf := solveBinary_fromLeaf (mem_binaryMode h)
    refine ⟨fromLeaf_length hleaf, fun x hx => ?_, fromLeaf_sum hleaf⟩
    rcases fromLeaf_dom hleaf x hx with h0 | h1
    · omega
    · omega
  · have hleaf := solveGeneral_fromLeaf h
    exact ⟨fromLeaf_length hleaf, fromLeaf_dom hleaf, fromLeaf_sum hleaf⟩

theorem result_shape_witness :
    (([1, 1, 0, 0] : List Int) ∈ binaryMode 4 2 4 ∨ ([1, 1, 0, 0] : List Int) ∈ solveGeneral 4 2 4) ∧
    (([1, 1, 0, 0] : List Int).length = 4 ∧ (∀ x ∈ ([1, 1, 0, 0] : List Int), 0 ≤ x) ∧
      ([1, 1, 0, 0] : List Int).sum = 2) :=
  ⟨Or.inl (by decide), result_shape 4 2 4 [1, 1, 0, 0] (Or.inl (by decide))⟩

/-- C2: for `m ≥ 1`, every sequence `r` actually returned by `solveBinary` or
`solveGeneral` (the stored canonical rotation, not only the candidate tested before the
rotation) satisfies `failsZeroConstraint(r, m) = false`. -/
theorem result_passes_check (l : Nat) (p m : Int) (hm : 1 ≤ m) (r : List Int)
    (h : r ∈ solveBinary l p m ∨ r ∈ solveGeneral l p m) :
    failsZeroConstraint r m = false := by
  rcases h with h | h
  · exact fromLeaf_passes (solveBinary_fromLeaf h) hm
  · exact fromLeaf_passes (solveGeneral_fromLeaf h) hm

theorem result_passes_check_witness :
    (1 : Int) ≤ 2 ∧ (([2, 0, 1] : List Int) ∈ solveBinary 3 3 2 ∨
      ([2, 0, 1] : List Int) ∈ solveGeneral 3 3 2) ∧
    failsZeroConstraint [2, 0, 1] 2 = false :=
  ⟨by decide, Or.inr (by decide),
    result_passes_check 3 3 2 (by decide) [2, 0, 1] (Or.inr (by decide))⟩

/-- C3: in the list returned by `solveBinary` and in the list returned by `solveGeneral`,
the sequence at a position `i` is not a rotation, by any offset `k`, of the sequence at
a different position `j`; in particular the list has no duplicates. -/
theorem result_rotation_distinct (l : Nat) (p m : Int) (res : List (List Int))
    (hres : res = solveBinary l p m ∨ res = solveGeneral l p m) :
    (∀ (i j : Nat) (hi : i < res.length) (hj : j < res.length), i ≠ j →
      ∀ k : Nat, res[i] ≠ (res[j]).rotate k) ∧ res.Nodup := by
  rcases hres with rfl | rfl
  · exact ⟨fun i j hi hj hij k => no_rotations_of_canonical _ (solveBinary_nodup l p m)
      (fun r hr => fromLeaf_canonical (solveBinary_fromLeaf hr)) i j hi hj hij k,
      solveBinary_nodup l p m⟩
  · exact ⟨fun i j hi hj hij k => no_rotations_of_canonical _ (solveGeneral_nodup l p m)
      (fun r hr => fromLeaf_canonical (solveGeneral_fromLeaf hr)) i j hi hj hij k,
      solveGeneral_nodup l p m⟩

theorem result_rotation_distinct_witness :
    (∀ (i j : Nat) (hi : i < ([[2, 1, 0], [2, 0, 1], [1, 1, 1]] : List (List Int)).length)
      (hj : j < ([[2, 1, 0], [2, 0, 1], [1, 1, 1]] : List (List Int)).length), i ≠ j →
      ∀ k : Nat, ([[2, 1, 0], [2, 0, 1], [1, 1, 1]] : List (List Int))[i] ≠
        (([[2, 1, 0], [2, 0, 1], [1, 1, 1]] : List (List Int))[j]).rotate k) ∧
    ([[2, 1, 0], [2, 0, 1], [1, 1, 1]] : List (List Int)).Nodup :=
  result_rotation_distinct 3 3 2 [[2, 1, 0], [2, 0, 1], [1, 1, 1]] (Or.inr (by decide))

/-- C4: completeness of binary mode despite pruning: for every sequence `s` of length
`l` with entries in {0, 1}, sum `p` and `failsZeroConstraint(s, m) = false`, the
sequence `getCanonical(s).arr` is a member of `solveBinary(l, p, m)`; the two pruning
tests never cut off a valid candidate. -/
theorem binary_complete (l : Nat) (p m : Int) (s : List Int) (hlen : s.length = l)
    (hbits : ∀ x ∈ s, x = 0 ∨ x = 1) (hsum : s.sum = p)
    (hpass : failsZeroConstraint s m = false) :
    (getCanonical s).arr ∈ solveBinary l p m :=
  solveBinary_complete l p m s hlen hbits hsum hpass

theorem binary_complete_witness :
    (getCanonical [0, 1, 0, 1]).arr ∈ solveBinary 4 2 4 :=
  binary_complete 4 2 4 [0, 1, 0, 1] (by decide) (by decide) (by decide) (by decide)

/-- C5: completeness of general mode: for every sequence `s` of length `l` with
non-negative integer entries, sum `p` and `failsZeroConstraint(s, m) = false`, the
sequence `getCanonical(s).arr` is a member of `solveGeneral(l, p, m)`; bounding each
slot by the remaining budget loses no weak composition of `p` into `l` parts. -/
theorem general_complete (l : Nat) (p m : Int) (s : List Int) (hlen : s.length = l)
    (hnonneg : ∀ x ∈ s, 0 ≤ x) (hsum : s.sum = p)
    (hpass : failsZeroConstraint s m = false) :
    (getCanonical s).arr ∈ solveGeneral l p m :=
  solveGeneral_complete l p m s hlen hnonneg hsum hpass

theorem general_complete_witness :
    (getCanonical [0, 1, 2]).arr ∈ solveGeneral 3 3 2 :=
  general_complete 3 3 2 [0, 1, 2] (by decide) (by decide) (by decide) (by decide)

/-- C6: every sequence `r` returned by `solveBinary` or `solveGeneral` is a fixed point
of canonicalisation: `getCanonical(r).arr = r`, and `compareArrays(rot, r) <= 0` for
every rotation `rot` of `r`. -/
theorem result_canonical (l : Nat) (p m : Int) (r : List Int)
    (h : r ∈ solveBinary l p m ∨ r ∈ solveGeneral l p m) :
    (getCanonical r).arr = r ∧ ∀ k : Nat, compareArrays (r.rotate k) r ≤ 0 := by
  have hfix : (getCanonical r).arr = r := by
    rcases h with h | h
    · exact fromLeaf_canonical (solveBinary_fromLeaf h)
    · exact fromLeaf_canonical (solveGeneral_fromLeaf h)
  refine ⟨hfix, fun k => ?_⟩
  have := getCanonical_max r k
  rwa [hfix] at this

theorem result_canonical_witness :
    (getCanonical [1, 0, 1, 0]).arr = [1, 0, 1, 0] ∧
      ∀ k : Nat, compareArrays (([1, 0, 1, 0] : List Int).rotate k) [1, 0, 1, 0] ≤ 0 :=
  result_canonical 4 2 4 [1, 0, 1, 0] (Or.inl (by decide))

/-- C7: for an array `arr` of length `L ≥ 1` and a threshold `1 ≤ m ≤ L`,
`failsZeroConstraint(arr, m)` is true exactly when some start index `i` in `0..L-1` has
`arr[(i + j) mod L] = 0` for all `j` in `0..m-1`: a circular run of at least `m` zeros.
(`L ≥ 1` is implied by `1 ≤ m ≤ L`.) -/
theorem failsZeroConstraint_circular (arr : List Int) (m : Int)
    (hm1 : 1 ≤ m) (hm2 : m ≤ (arr.length : Int)) :
    failsZeroConstraint arr m = true ↔
      ∃ i : Nat, i < arr.length ∧
        ∀ j : Nat, (j : Int) < m → arr[(i + j) % arr.length]? = some 0 := by
  obtain ⟨n, rfl⟩ : ∃ n : Nat, m = (n : Int) := ⟨m.toNat, by omega⟩
  rw [failsZeroConstraint_ofNat_iff arr n (by omega)]
  constructor
  · rintro ⟨-, i, hi, hrun⟩
    exact ⟨i, hi, fun j hj => hrun j (by omega)⟩
  · rintro ⟨i, hi, hrun⟩
    exact ⟨by omega, i, hi, fun j hj => hrun j (by omega)⟩

theorem failsZeroConstraint_circular_witness :
    failsZeroConstraint [0, 1, 0] 2 = true ↔
      ∃ i : Nat, i < ([0, 1, 0] : List Int).length ∧
        ∀ j : Nat, (j : Int) < 2 →
          ([0, 1, 0] : List Int)[(i + j) % ([0, 1, 0] : List Int).length]? = some 0 :=
  failsZeroConstraint_circular [0, 1, 0] 2 (by decide) (by decide)

/-- C8: for every integer array `arr`, `getCanonical(arr).arr` is one of the rotations
of `arr` (shifted by some offset `0..len-1`, or `arr` itself when empty) and is
lexicographically greatest among them, `compareArrays(rot, getCanonical(arr).arr) <= 0`
for every rotation `rot`; and `getCanonical(arr).key` is the comma-joined rendering of
exactly that returned array. -/
theorem getCanonical_spec (arr : List Int) :
    ((arr = [] ∧ (getCanonical arr).arr = arr) ∨
      ∃ k : Nat, k < arr.length ∧ (getCanonical arr).arr = arr.rotate k) ∧
    (∀ k : Nat, compareArrays (arr.rotate k) (getCanonical arr).arr ≤ 0) ∧
    (getCanonical arr).key = joinComma (getCanonical arr).arr := by
  refine ⟨?_, getCanonical_max arr, getCanonical_key arr⟩
  rcases getCanonical_rotation arr with ⟨h1, h2⟩ | h
  · exact Or.inl ⟨h1, by rw [h2, h1]⟩
  · exact Or.inr h

/-- C9: the list returned by `solveBinary` and the list returned by `solveGeneral` are
in strictly descending lexicographic order: `compareArrays(a, b) > 0` for every pair of
adjacent elements `a`, `b` (and indeed for every earlier `a` and later `b`). -/
theorem result_strictly_descending (l : Nat) (p m : Int) :
    (List.Chain' (fun a b => compareArrays a b > 0) (solveBinary l p m) ∧
      List.Chain' (fun a b => compareArrays a b > 0) (solveGeneral l p m)) ∧
    ((solveBinary l p m).Pairwise (fun a b => compareArrays a b > 0) ∧
      (solveGeneral l p m).Pairwise (fun a b => compareArrays a b > 0)) := by
  have hb : (solveBinary l p m).Pairwise (fun a b => compareArrays a b > 0) :=
    sortDescending_strict l _
      (fun x hx => fromLeaf_length ((solveBinary_stateOK l p m).sound x hx))
      (solveBinary_stateOK l p m).nodup
  have hg : (solveGeneral l p m).Pairwise (fun a b => compareArrays a b > 0) :=
    sortDescending_strict l _
      (fun x hx => fromLeaf_length ((solveGeneral_stateOK l p m).sound x hx))
      (solveGeneral_stateOK l p m).nodup
  exact ⟨⟨hb.chain', hg.chain'⟩, hb, hg⟩

/-- C10: binary mode returns the empty list whenever `p > l`, for every `m`: both the
guarded call of the handler and `solveBinary(l, p, m)` called directly, whose search
leaves the state untouched (no completed candidate ever passes the sum test). -/
theorem binary_empty_of_sum_gt_length (l : Nat) (p m : Int) (h : (l : Int) < p) :
    binaryMode l p m = [] ∧ solveBinary l p m = [] ∧
      ∀ st : SearchState, backtrackBinary p m l [] st = st := by
  have hsolve : solveBinary l p m = [] := by
    unfold solveBinary
    rw [backtrackBinary_infeasible l p m h]
    rfl
  refine ⟨?_, hsolve, backtrackBinary_infeasible l p m h⟩
  unfold binaryMode
  rw [if_neg (by omega)]

theorem binary_empty_of_sum_gt_length_witness :
    ((2 : Nat) : Int) < 3 ∧ binaryMode 2 3 1 = [] ∧ solveBinary 2 3 1 = [] ∧
      ∀ st : SearchState, backtrackBinary 3 1 2 [] st = st :=
  ⟨by decide, binary_empty_of_sum_gt_length 2 3 1 (by decide)⟩

/-! ## The comparator as the lexicographic order -/

theorem firstDiff_cons_zero (u v : Int) (as bs : List Int) (x y : Int) :
    FirstDiff (u :: as) (v :: bs) 0 x y ↔ u = x ∧ v = y ∧ x ≠ y := by
  unfold FirstDiff
  simp

theorem firstDiff_cons_succ (u v : Int) (as bs : List Int) (i : Nat) (x y : Int) :
    FirstDiff (u :: as) (v :: bs) (i + 1) x y ↔ u = v ∧ FirstDiff as bs i x y := by
  unfold FirstDiff
  constructor
  · rintro ⟨h1, h2, h3, h4⟩
    refine ⟨by simpa using h1 0 (by omega), fun j hj => ?_, by simpa using h2,
      by simpa using h3, h4⟩
    simpa using h1 (j + 1) (by omega)
  · rintro ⟨huv, h1, h2, h3, h4⟩
    refine ⟨fun j hj => ?_, by simpa using h2, by simpa using h3, h4⟩
    rcases j with _ | j
    · simp [huv]
    · simpa using h1 j (by omega)

theorem firstDiff_cons (u v : Int) (as bs : List Int) (P : Int → Int → Prop) :
    (∃ i x y, FirstDiff (u :: as) (v :: bs) i x y ∧ P x y) ↔
      (u ≠ v ∧ P u v) ∨ (u = v ∧ ∃ i x y, FirstDiff as bs i x y ∧ P x y) := by
  constructor
  · rintro ⟨i, x, y, hd, hP⟩
    rcases i with _ | i
    · rw [firstDiff_cons_zero] at hd
      obtain ⟨rfl, rfl, hne⟩ := hd
      exact Or.inl ⟨hne, hP⟩
    · rw [firstDiff_cons_succ] at hd
      exact Or.inr ⟨hd.1, i, x, y, hd.2, hP⟩
  · rintro (⟨hne, hP⟩ | ⟨huv, i, x, y, hd, hP⟩)
    · exact ⟨0, u, v, (firstDiff_cons_zero u v as bs u v).2 ⟨rfl, rfl, hne⟩, hP⟩
    · exact ⟨i + 1, x, y, (firstDiff_cons_succ u v as bs i x y).2 ⟨huv, hd⟩, hP⟩

theorem firstDiff_nil (b : List Int) (i : Nat) (x y : Int) : ¬ FirstDiff [] b i x y := by
  rintro ⟨-, h, -⟩
  simp at h

theorem compareArrays_eq_one_iff : ∀ (a b : List Int), a.length = b.length →
    (compareArrays a b = 1 ↔ ∃ i x y, FirstDiff a b i x y ∧ x > y)
  | [], b, _ => by
    simp only [compareArrays]
    constructor
    · intro h; omega
    · rintro ⟨i, x, y, hd, -⟩
      exact absurd hd (firstDiff_nil b i x y)
  | _ :: _, [], h => by simp at h
  | u :: as, v :: bs, hlen => by
    have ih := compareArrays_eq_one_iff as bs (by simpa using hlen)
    rw [firstDiff_cons u v as bs (fun x y => x > y), ← ih]
    simp only [compareArrays]
    split_ifs with h1 h2
    · constructor
      · intro _; exact Or.inl ⟨by omega, h1⟩
      · intro _; rfl
    · constructor
      · intro h; exact h.elim
      · rintro (⟨-, h⟩ | ⟨h, -⟩)
        · have hgt : u > v := h
          omega
        · omega
    · have huv : u = v := by omega
      constructor
      · intro h; exact Or.inr ⟨huv, h⟩
      · rintro (⟨h, -⟩ | ⟨-, h⟩)
        · exact absurd huv h
        · exact h

theorem compareArrays_eq_neg_one_iff : ∀ (a b : List Int), a.length = b.length →
    (compareArrays a b = -1 ↔ ∃ i x y, FirstDiff a b i x y ∧ x < y)
  | [], b, _ => by
    simp only [compareArrays]
    constructor
    · intro h; omega
    · rintro ⟨i, x, y, hd, -⟩
      exact absurd hd (firstDiff_nil b i x y)
  | _ :: _, [], h => by simp at h
  | u :: as, v :: bs, hlen => by
    have ih := compareArrays_eq_neg_one_iff as bs (by simpa using hlen)
    rw [firstDiff_cons u v as bs (fun x y => x < y), ← ih]
    simp only [compareArrays]
    split_ifs with h1 h2
    · constructor
      · intro h; exact h.elim
      · rintro (⟨-, h⟩ | ⟨h, -⟩)
        · have hlt : u < v := h
          omega
        · omega
    · constructor
      · intro _; exact Or.inl ⟨by omega, h2⟩
      · intro _; rfl
    · have huv : u = v := by omega
      constructor
      · intro h; exact Or.inr ⟨huv, h⟩
      · rintro (⟨h, -⟩ | ⟨-, h⟩)
        · exact absurd huv h
        · exact h

theorem compareArrays_values : ∀ (a b : List Int),
    compareArrays a b = 0 ∨ compareArrays a b = 1 ∨ compareArrays a b = -1
  | [], _ => Or.inl rfl
  | _ :: as, [] => by
    simp only [compareArrays]
    exact compareArrays_values as []
  | u :: as, v :: bs => by
    simp only [compareArrays]
    split_ifs
    · exact Or.inr (Or.inl rfl)
    · exact Or.inr (Or.inr rfl)
    · exact compareArrays_values as bs

/-- C11: for two integer arrays `a`, `b` of one length, `compareArrays(a, b)` is the
standard lexicographic comparison from index 0: it is `0` exactly when `a = b`, `1`
exactly when at the first index where they differ `a[i] > b[i]`, and `-1` exactly when
there `a[i] < b[i]`; so `compareArrays(a, b) = -compareArrays(b, a)`, and the relation
`compareArrays(a, b) <= 0` is reflexive, total, antisymmetric and transitive on arrays
of that length. -/
theorem compareArrays_lexicographic (a b : List Int) (hlen : a.length = b.length) :
    (compareArrays a b = 0 ↔ a = b) ∧
    (compareArrays a b = 1 ↔ ∃ i x y, FirstDiff a b i x y ∧ x > y) ∧
    (compareArrays a b = -1 ↔ ∃ i x y, FirstDiff a b i x y ∧ x < y) ∧
    (compareArrays a b = 0 ∨ compareArrays a b = 1 ∨ compareArrays a b = -1) ∧
    compareArrays a b = - compareArrays b a ∧
    compareArrays a a ≤ 0 ∧
    (compareArrays a b ≤ 0 ∨ compareArrays b a ≤ 0) ∧
    (compareArrays a b ≤ 0 → compareArrays b a ≤ 0 → a = b) ∧
    (∀ c : List Int, b.length = c.length → compareArrays a b ≤ 0 → compareArrays b c ≤ 0 →
      compareArrays a c ≤ 0) := by
  refine ⟨⟨compareArrays_eq_zero a b hlen, fun h => by rw [h]; exact compareArrays_self b⟩,
    compareArrays_eq_one_iff a b hlen, compareArrays_eq_neg_one_iff a b hlen,
    compareArrays_values a b, ?_, by rw [compareArrays_self], compareArrays_total a b hlen,
    compareArrays_antisymm a b hlen, fun c hc => compareArrays_trans a b c hlen hc⟩
  have := compareArrays_swap a b hlen
  omega

theorem compareArrays_lexicographic_witness :
    (compareArrays [2, 0, 1] [2, 1, 0] = -1 ↔
      ∃ i x y, FirstDiff [2, 0, 1] [2, 1, 0] i x y ∧ x < y) ∧
    compareArrays [2, 0, 1] [2, 1, 0] = - compareArrays [2, 1, 0] [2, 0, 1] :=
  ⟨(compareArrays_lexicographic [2, 0, 1] [2, 1, 0] (by decide)).2.2.1,
    (compareArrays_lexicographic [2, 0, 1] [2, 1, 0] (by decide)).2.2.2.2.1⟩

/-! ## Worked examples and degenerate sums -/

/-- C12, as stated, fails: `solveBinary(4, 2, 4)` is not the one-element list
`[[1,1,0,0]]`. -/
theorem binary_4_2_4_not_single_class : solveBinary 4 2 4 ≠ [[1, 1, 0, 0]] := by decide

/-- C12, amended: binary mode with `L = 4`, `P = 2`, `M = 4` returns two classes,
`solveBinary(4, 2, 4) = [[1,1,0,0], [1,0,1,0]]`. -/
theorem binary_4_2_4_two_classes : solveBinary 4 2 4 = [[1, 1, 0, 0], [1, 0, 1, 0]] := by decide

theorem eq_zeros_of_nonneg_of_sum_zero : ∀ s : List Int, (∀ x ∈ s, 0 ≤ x) → s.sum = 0 →
    s = List.replicate s.length 0
  | [], _, _ => rfl
  | x :: s, hdom, hsum => by
    have hx : 0 ≤ x := hdom x (List.mem_cons_self _ _)
    have hs : ∀ y ∈ s, IsNonneg y := fun y hy => hdom y (List.mem_cons_of_mem _ hy)
    have hpos := sum_nonneg_of_nonneg s hs
    rw [List.sum_cons] at hsum
    have hx0 : x = 0 := by omega
    have ih := eq_zeros_of_nonneg_of_sum_zero s hs (by omega)
    rw [List.length_cons, List.replicate_succ, hx0, ← ih]

theorem sum_zeros (l : Nat) : (List.replicate l (0 : Int)).sum = 0 := by
  simp

theorem circularRun_zeros (l n : Nat) (hl : 1 ≤ l) : CircularRun (List.replicate l 0) n := by
  refine ⟨0, by simpa using hl, fun j _ => ?_⟩
  rw [List.getElem?_replicate, if_pos]
  rw [List.length_replicate]
  exact Nat.mod_lt _ (by omega)

/-- On an array of `l ≥ 1` zeros the check fires exactly for thresholds up to `2 * l`. -/
theorem failsZeroConstraint_zeros (l n : Nat) (hl : 1 ≤ l) (hn : 1 ≤ n) :
    failsZeroConstraint (List.replicate l 0) (n : Int) = true ↔ n ≤ 2 * l := by
  rw [failsZeroConstraint_ofNat_iff _ n hn, List.length_replicate]
  exact ⟨fun h => h.1, fun h => ⟨h, circularRun_zeros l n hl⟩⟩

theorem getCanonical_zeros (l : Nat) :
    (getCanonical (List.replicate l 0)).arr = List.replicate l 0 :=
  List.perm_replicate.1 (getCanonical_isRotated (List.replicate l 0)).perm.symm

theorem eq_singleton_of_nodup {α : Type} {xs : List α} {x : α} (hnodup : xs.Nodup)
    (hall : ∀ y ∈ xs, y = x) (hmem : x ∈ xs) : xs = [x] := by
  rcases xs with _ | ⟨a, _ | ⟨b, rest⟩⟩
  · simp at hmem
  · rw [hall a (List.mem_cons_self _ _)]
  · exfalso
    have ha := hall a (List.mem_cons_self _ _)
    have hb := hall b (List.mem_cons_of_mem _ (List.mem_cons_self _ _))
    rw [List.nodup_cons] at hnodup
    exact hnodup.1 (by rw [ha, ← hb]; exact List.mem_cons_self _ _)

theorem zero_sum_rejected {Dom : Int → Prop} (hDom : ∀ x, Dom x → 0 ≤ x) (l : Nat) (m : Int)
    (hm1 : 1 ≤ m) (hm2 : m ≤ (l : Int)) (r : List Int) : ¬ FromLeaf Dom l 0 m r := by
  rintro ⟨s, hlen, hdom, hsum, hpass, -⟩
  obtain ⟨n, rfl⟩ : ∃ n : Nat, m = (n : Int) := ⟨m.toNat, by omega⟩
  have hs := eq_zeros_of_nonneg_of_sum_zero s (fun x hx => hDom x (hdom x hx)) hsum
  rw [hlen] at hs
  have htrue := (failsZeroConstraint_zeros l n (by omega) (by omega)).2 (by omega)
  rw [← hs, hpass] at htrue
  exact Bool.false_ne_true htrue

/-- C13: for every `L ≥ 1` and every `M` with `1 ≤ M ≤ L`, both `solveBinary(L, 0, M)`
and `solveGeneral(L, 0, M)` return the empty list: the only candidate, `L` zeros, is
rejected by `failsZeroConstraint`. -/
theorem zero_sum_empty (l : Nat) (m : Int) (hl : 1 ≤ l) (hm1 : 1 ≤ m) (hm2 : m ≤ (l : Int)) :
    (solveBinary l 0 m = [] ∧ solveGeneral l 0 m = []) ∧
      failsZeroConstraint (List.replicate l 0) m = true := by
  refine ⟨⟨?_, ?_⟩, ?_⟩
  · rw [List.eq_nil_iff_forall_not_mem]
    intro r hr
    refine zero_sum_rejected (fun x hx => ?_) l m hm1 hm2 r (solveBinary_fromLeaf hr)
    rcases hx with h | h <;> omega
  · rw [List.eq_nil_iff_forall_not_mem]
    intro r hr
    exact zero_sum_rejected (fun x hx => hx) l m hm1 hm2 r (solveGeneral_fromLeaf hr)
  · obtain ⟨n, rfl⟩ : ∃ n : Nat, m = (n : Int) := ⟨m.toNat, by omega⟩
    exact (failsZeroConstraint_zeros l n hl (by omega)).2 (by omega)

theorem zero_sum_empty_witness :
    (solveBinary 3 0 1 = [] ∧ solveGeneral 3 0 1 = []) ∧
      failsZeroConstraint (List.replicate 3 0) 1 = true :=
  zero_sum_empty 3 1 (by decide) (by decide) (by decide)

/-- C14, as stated, fails at `L = 1`, `M = 2` (so `M > L`): `solveGeneral(1, 0, 2)` is not
the one-element list holding the array of one zero, and `failsZeroConstraint([0], 2)` is
not `false`; the extended array `[0, 0]` holds a run of two zeros. -/
theorem zeros_not_accepted_1_2 :
    solveGeneral 1 0 2 ≠ [List.replicate 1 0] ∧
      failsZeroConstraint (List.replicate 1 0) 2 ≠ false := by decide

/-- C14, amended: for every `L ≥ 1` and every `M > 2 * L`, the all-zero sequence of
length `L` is accepted when `P = 0`: `solveGeneral(L, 0, M)` is the one-element list
holding the sequence of `L` zeros, and `failsZeroConstraint(zeros(L), M) = false`. -/
theorem zeros_accepted_of_gt_double (l : Nat) (m : Int) (hl : 1 ≤ l)
    (hm : (2 * l : Int) < m) :
    solveGeneral l 0 m = [List.replicate l 0] ∧
      failsZeroConstraint (List.replicate l 0) m = false := by
  obtain ⟨n, rfl⟩ : ∃ n : Nat, m = (n : Int) := ⟨m.toNat, by omega⟩
  have hpass : failsZeroConstraint (List.replicate l 0) (n : Int) = false := by
    cases hf : failsZeroConstraint (List.replicate l 0) (n : Int)
    · rfl
    · have := (failsZeroConstraint_zeros l n hl (by omega)).1 hf
      omega
  refine ⟨eq_singleton_of_nodup (solveGeneral_nodup l 0 n) ?_ ?_, hpass⟩
  · intro r hr
    have hleaf := solveGeneral_fromLeaf hr
    have := eq_zeros_of_nonneg_of_sum_zero r (fromLeaf_dom hleaf) (fromLeaf_sum hleaf)
    rwa [fromLeaf_length hleaf] at this
  · have := solveGeneral_complete l 0 n (List.replicate l 0) (by simp)
      (fun x hx => by rw [(List.mem_replicate.1 hx).2]; exact le_refl (0 : Int))
      (sum_zeros l) hpass
    rwa [getCanonical_zeros] at this

theorem zeros_accepted_of_gt_double_witness :
    solveGeneral 1 0 3 = [List.replicate 1 0] ∧
      failsZeroConstraint (List.replicate 1 0) 3 = false :=
  zeros_accepted_of_gt_double 1 3 (by decide) (by decide)

theorem no_zero_of_passes_one (r : List Int) (h : failsZeroConstraint r 1 = false) :
    ∀ x ∈ r, x ≠ 0 := by
  intro x hx hx0
  rw [hx0, List.mem_iff_getElem?] at hx
  obtain ⟨i, hi⟩ := hx
  have hlt : i < r.length := by
    by_contra hge
    rw [List.getElem?_eq_none (by omega)] at hi
    exact absurd hi (by simp)
  have htrue : failsZeroConstraint r ((1 : Nat) : Int) = true := by
    rw [failsZeroConstraint_ofNat_iff r 1 (le_refl 1)]
    refine ⟨by omega, i, hlt, fun j hj => ?_⟩
    have hj0 : j = 0 := by omega
    rw [hj0, Nat.add_zero, Nat.mod_eq_of_lt hlt]
    exact hi
  rw [Nat.cast_one, h] at htrue
  exact Bool.false_ne_true htrue

theorem length_le_sum_of_pos : ∀ s : List Int, (∀ x ∈ s, 1 ≤ x) → (s.length : Int) ≤ s.sum
  | [], _ => by simp
  | x :: s, h => by
    have ih := length_le_sum_of_pos s (fun y hy => h y (List.mem_cons_of_mem _ hy))
    have hx := h x (List.mem_cons_self _ _)
    simp only [List.length_cons, List.sum_cons, Nat.cast_add, Nat.cast_one]
    omega

theorem eq_ones_of_pos_of_sum : ∀ s : List Int, (∀ x ∈ s, 1 ≤ x) → s.sum = (s.length : Int) →
    s = List.replicate s.length 1
  | [], _, _ => rfl
  | x :: s, h, hsum => by
    have hs : ∀ y ∈ s, 1 ≤ y := fun y hy => h y (List.mem_cons_of_mem _ hy)
    have hle := length_le_sum_of_pos s hs
    have hx := h x (List.mem_cons_self _ _)
    simp only [List.length_cons, List.sum_cons, Nat.cast_add, Nat.cast_one] at hsum
    have hx1 : x = 1 := by omega
    have ih := eq_ones_of_pos_of_sum s hs (by omega)
    rw [List.length_cons, List.replicate_succ, hx1, ← ih]

theorem failsZeroConstraint_ones (l : Nat) :
    failsZeroConstraint (List.replicate l 1) 1 = false := by
  cases hf : failsZeroConstraint (List.replicate l 1) 1
  · rfl
  · exfalso
    have h1 : failsZeroConstraint (List.replicate l 1) ((1 : Nat) : Int) = true := by
      rw [Nat.cast_one]; exact hf
    rw [failsZeroConstraint_ofNat_iff _ 1 (le_refl 1)] at h1
    obtain ⟨-, i, -, hrun⟩ := h1
    have := hrun 0 (by omega)
    rw [List.getElem?_replicate] at this
    split_ifs at this
    simp at this

theorem getCanonical_ones (l : Nat) :
    (getCanonical (List.replicate l 1)).arr = List.replicate l 1 :=
  List.perm_replicate.1 (getCanonical_isRotated (List.replicate l 1)).perm.symm

/-- C15: with `M = 1` no returned sequence may contain a zero, so general mode with
`P = L` has exactly one result, the sequence of `L` ones:
`solveGeneral(L, L, 1) = [[1, 1, ..., 1]]`, for every `L`. -/
theorem solveGeneral_all_ones (l : Nat) :
    (∀ r ∈ solveGeneral l (l : Int) 1, ∀ x ∈ r, x ≠ 0) ∧
      solveGeneral l (l : Int) 1 = [List.replicate l 1] := by
  have hnozero : ∀ r ∈ solveGeneral l (l : Int) 1, ∀ x ∈ r, x ≠ 0 := fun r hr =>
    no_zero_of_passes_one r (fromLeaf_passes (solveGeneral_fromLeaf hr) (le_refl 1))
  refine ⟨hnozero, eq_singleton_of_nodup (solveGeneral_nodup l l 1) ?_ ?_⟩
  · intro r hr
    have hleaf := solveGeneral_fromLeaf hr
    have hlen := fromLeaf_length hleaf
    have hpos : ∀ x ∈ r, 1 ≤ x := by
      intro x hx
      have h0 : 0 ≤ x := fromLeaf_dom hleaf x hx
      have hne := hnozero r hr x hx
      omega
    have := eq_ones_of_pos_of_sum r hpos (by rw [fromLeaf_sum hleaf, hlen])
    rwa [hlen] at this
  · have := solveGeneral_complete l l 1 (List.replicate l 1) (by simp)
      (fun x hx => by rw [(List.mem_replicate.1 hx).2]; exact Int.one_nonneg)
      (by simp) (failsZeroConstraint_ones l)
    rwa [getCanonical_ones] at this

theorem solveGeneral_all_ones_witness : solveGeneral 3 3 1 = [[1, 1, 1]] :=
  (solveGeneral_all_ones 3).2

/-! ## Canonical forms and rotation classes -/

/-- C16: for any two integer sequences `a` and `b`, `getCanonical(a).arr` equals
`getCanonical(b).arr`, and likewise the keys are equal, if and only if `b` is a rotation
of `a`; in particular `getCanonical` is invariant under rotation of its input. -/
theorem getCanonical_eq_iff_rotation (a b : List Int) :
    ((getCanonical a).arr = (getCanonical b).arr ↔ ∃ k : Nat, b = a.rotate k) ∧
    ((getCanonical a).key = (getCanonical b).key ↔ ∃ k : Nat, b = a.rotate k) ∧
    (∀ k : Nat, (getCanonical (a.rotate k)).arr = (getCanonical a).arr ∧
      (getCanonical (a.rotate k)).key = (getCanonical a).key) := by
  have harr : (getCanonical a).arr = (getCanonical b).arr ↔ ∃ k : Nat, b = a.rotate k := by
    constructor
    · intro h
      have h1 : List.IsRotated a (getCanonical b).arr := h ▸ getCanonical_isRotated a
      obtain ⟨k, hk⟩ := h1.trans (getCanonical_isRotated b).symm
      exact ⟨k, hk.symm⟩
    · rintro ⟨k, hk⟩
      exact getCanonical_congr ⟨k, hk.symm⟩
  have hkey : (getCanonical a).key = (getCanonical b).key ↔
      (getCanonical a).arr = (getCanonical b).arr := by
    rw [getCanonical_key a, getCanonical_key b]
    exact ⟨joinComma_injective, fun h => by rw [h]⟩
  refine ⟨harr, hkey.trans harr, fun k => ?_⟩
  have h1 : (getCanonical (a.rotate k)).arr = (getCanonical a).arr :=
    (getCanonical_congr ⟨k, rfl⟩).symm
  exact ⟨h1, by rw [getCanonical_key, getCanonical_key a, h1]⟩

/-! ## Variants of the run check -/

theorem failsZeroConstraintShortExtension_ofNat_iff (arr : List Int) (n : Nat) (hn : 1 ≤ n) :
    failsZeroConstraintShortExtension arr (n : Int) = true ↔
      n ≤ 2 * arr.length ∧ CircularRun arr n := by
  unfold failsZeroConstraintShortExtension
  have hcast : ((n : Int) - 1) = ((n - 1 : Nat) : Int) := by omega
  simp only [hcast, sliceFromZero_ofNat]
  rw [scanZeros_zero_iff n hn]
  constructor
  · rintro ⟨i, hi⟩
    have hlast := hi (n - 1) (by omega)
    rw [extended_getElem?] at hlast
    split_ifs at hlast with hb
    have hpos : 0 < arr.length := by
      rcases Nat.eq_zero_or_pos arr.length with h0 | h0
      · rw [h0] at hb; simp at hb
      · exact h0
    refine ⟨by omega, i % arr.length, Nat.mod_lt _ hpos, fun j hj => ?_⟩
    have := hi j hj
    rw [extended_getElem?] at this
    split_ifs at this with hb2
    rwa [Nat.mod_add_mod]
  · rintro ⟨h2, hrun⟩
    by_cases hle : n ≤ arr.length
    · obtain ⟨i, hi, hrun⟩ := hrun
      refine ⟨i, fun j hj => ?_⟩
      rw [extended_getElem?, if_pos (by omega)]
      exact hrun j hj
    · refine ⟨0, fun j hj => ?_⟩
      rw [extended_getElem?, if_pos (by omega)]
      exact circularRun_all_zero hrun (by omega) _

/-- C17: the extension by the first `m` elements used by the code gives the same answer
as the documented extension by only the first `m - 1` elements: for every integer array
and every `m ≥ 1`, `failsZeroConstraint(arr, m)` equals the result of the same scan run
over `arr.concat(arr.slice(0, m - 1))`. -/
theorem failsZeroConstraint_eq_shortExtension (arr : List Int) (m : Int) (hm : 1 ≤ m) :
    failsZeroConstraint arr m = failsZeroConstraintShortExtension arr m := by
  obtain ⟨n, rfl⟩ : ∃ n : Nat, m = (n : Int) := ⟨m.toNat, by omega⟩
  have hn : 1 ≤ n := by omega
  have hiff : failsZeroConstraint arr (n : Int) = true ↔
      failsZeroConstraintShortExtension arr (n : Int) = true := by
    rw [failsZeroConstraint_ofNat_iff arr n hn,
      failsZeroConstraintShortExtension_ofNat_iff arr n hn]
  cases ha : failsZeroConstraint arr (n : Int) <;>
    cases hb : failsZeroConstraintShortExtension arr (n : Int) <;> simp_all

theorem failsZeroConstraint_eq_shortExtension_witness :
    failsZeroConstraint [0, 1, 0] 2 = failsZeroConstraintShortExtension [0, 1, 0] 2 :=
  failsZeroConstraint_eq_shortExtension [0, 1, 0] 2 (by decide)

theorem scanZeros_of_le_one (m : Int) (hm : m ≤ 1) : ∀ (xs : List Int) (c : Nat),
    scanZeros m c xs = true ↔ (0 : Int) ∈ xs
  | [], _ => by simp [scanZeros]
  | v :: rest, c => by
    simp only [scanZeros]
    by_cases hv : v = 0
    · have hge : ((c + 1 : Nat) : Int) ≥ m := by omega
      rw [if_pos hv, if_pos hge]
      simp [hv]
    · have hne : ¬ (0 : Int) = v := fun h => hv h.symm
      simp only [hv, if_false, List.mem_cons, hne, false_or]
      exact scanZeros_of_le_one m hm rest 0

theorem failsZeroConstraint_of_le_one (arr : List Int) (m : Int) (hm0 : 0 ≤ m) (hm1 : m ≤ 1) :
    failsZeroConstraint arr m = true ↔ (0 : Int) ∈ arr := by
  unfold failsZeroConstraint
  simp only
  rw [scanZeros_of_le_one m hm1]
  have hslice : sliceFromZero arr m = arr.take m.toNat := by
    unfold sliceFromZero
    rw [if_neg (by omega)]
  rw [hslice, List.mem_append]
  exact ⟨fun h => h.elim id List.mem_of_mem_take, Or.inl⟩

theorem failsZeroConstraint_zero_eq_one (arr : List Int) :
    failsZeroConstraint arr 0 = failsZeroConstraint arr 1 := by
  have h0 := failsZeroConstraint_of_le_one arr 0 (by omega) (by omega)
  have h1 := failsZeroConstraint_of_le_one arr 1 (by omega) (by omega)
  cases ha : failsZeroConstraint arr 0 <;> cases hb : failsZeroConstraint arr 1 <;> simp_all

theorem backtrackBinary_congr (p m m2 : Int)
    (h : ∀ arr, failsZeroConstraint arr m = failsZeroConstraint arr m2) :
    ∀ (remaining : Nat) (current : List Int) (st : SearchState),
      backtrackBinary p m remaining current st = backtrackBinary p m2 remaining current st
  | 0, current, st => by simp only [backtrackBinary, h]
  | remaining + 1, current, st => by
    simp only [backtrackBinary]
    rw [backtrackBinary_congr p m m2 h remaining, backtrackBinary_congr p m m2 h remaining]

theorem backtrackGeneral_congr (p m m2 : Int)
    (h : ∀ arr, failsZeroConstraint arr m = failsZeroConstraint arr m2) :
    ∀ (remaining : Nat) (current : List Int) (st : SearchState),
      backtrackGeneral p m remaining current st = backtrackGeneral p m2 remaining current st
  | 0, current, st => by simp only [backtrackGeneral, h]
  | remaining + 1, current, st => by
    simp only [backtrackGeneral]
    congr 1
    funext acc v
    exact backtrackGeneral_congr p m m2 h remaining _ _

/-- C18: for `M = 0` the checker behaves as a 1-length run check: for every integer
array, `failsZeroConstraint(arr, 0) = failsZeroConstraint(arr, 1)`, and both are true
exactly when `arr` contains an entry equal to 0; hence `solveBinary(L, P, 0)` equals
`solveBinary(L, P, 1)` and `solveGeneral(L, P, 0)` equals `solveGeneral(L, P, 1)`. -/
theorem threshold_zero_as_one (arr : List Int) (l : Nat) (p : Int) :
    failsZeroConstraint arr 0 = failsZeroConstraint arr 1 ∧
    (failsZeroConstraint arr 0 = true ↔ (0 : Int) ∈ arr) ∧
    (failsZeroConstraint arr 1 = true ↔ (0 : Int) ∈ arr) ∧
    solveBinary l p 0 = solveBinary l p 1 ∧
    solveGeneral l p 0 = solveGeneral l p 1 := by
  refine ⟨failsZeroConstraint_zero_eq_one arr,
    failsZeroConstraint_of_le_one arr 0 (by omega) (by omega),
    failsZeroConstraint_of_le_one arr 1 (by omega) (by omega), ?_, ?_⟩
  · unfold solveBinary
    rw [backtrackBinary_congr p 0 1 failsZeroConstraint_zero_eq_one]
  · unfold solveGeneral
    rw [backtrackGeneral_congr p 0 1 failsZeroConstraint_zero_eq_one]

/-! ## The leaves visited by the general search -/

theorem backtrackGeneral_eq_visit (p m : Int) : ∀ (remaining : Nat) (current : List Int)
    (st : SearchState),
    backtrackGeneral p m remaining current st =
      visitGeneral (leafGeneral p m) p remaining current st
  | 0, current, st => by simp only [backtrackGeneral, visitGeneral, leafGeneral]
  | remaining + 1, current, st => by
    simp only [backtrackGeneral, visitGeneral]
    congr 1
    funext acc v
    exact backtrackGeneral_eq_visit p m remaining _ _

theorem foldl_append_acc {α β : Type} (g : α → List β → List β)
    (hg : ∀ v acc, g v acc = acc ++ g v []) : ∀ (vs : List α) (acc : List β),
    vs.foldl (fun a v => g v a) acc = acc ++ vs.foldl (fun a v => g v a) []
  | [], acc => by simp
  | v :: vs, acc => by
    simp only [List.foldl_cons]
    rw [foldl_append_acc g hg vs (g v acc), foldl_append_acc g hg vs (g v []), hg v acc,
      List.append_assoc]

theorem visit_log_acc (p : Int) : ∀ (remaining : Nat) (current : List Int)
    (acc : List (List Int)),
    visitGeneral (fun current acc => acc ++ [current]) p remaining current acc =
      acc ++ visitGeneral (fun current acc => acc ++ [current]) p remaining current []
  | 0, current, acc => by simp [visitGeneral]
  | remaining + 1, current, acc => by
    simp only [visitGeneral]
    exact foldl_append_acc
      (fun v a => visitGeneral (fun current acc => acc ++ [current]) p remaining
        (current ++ [v]) a)
      (fun v a => visit_log_acc p remaining (current ++ [v]) a) _ acc

/-- The traversal runs its leaf block on exactly the logged arrays, in the logged order. -/
theorem visit_eq_foldl_log {σ : Type} (leaf : List Int → σ → σ) (p : Int) :
    ∀ (remaining : Nat) (current : List Int) (st : σ),
    visitGeneral leaf p remaining current st =
      (visitGeneral (fun current acc => acc ++ [current]) p remaining current []).foldl
        (fun acc s => leaf s acc) st
  | 0, current, st => by simp [visitGeneral]
  | remaining + 1, current, st => by
    simp only [visitGeneral]
    generalize countdown (p - sumArr current) = vs
    induction vs generalizing st with
    | nil => simp
    | cons v vs ih =>
      simp only [List.foldl_cons]
      rw [ih, visit_eq_foldl_log leaf p remaining (current ++ [v]) st,
        foldl_append_acc
          (fun v a => visitGeneral (fun current acc => acc ++ [current]) p remaining
            (current ++ [v]) a)
          (fun v a => visit_log_acc p remaining (current ++ [v]) a) vs
          (visitGeneral (fun current acc => acc ++ [current]) p remaining (current ++ [v])
            []),
        List.foldl_append]

/-- The state built by `solveGeneral` is the leaf block folded over the reached arrays. -/
theorem backtrackGeneral_eq_foldl_reached (l : Nat) (p m : Int) (st : SearchState) :
    backtrackGeneral p m l [] st =
      (reachedGeneral p l).foldl (fun acc s => leafGeneral p m s acc) st := by
  rw [backtrackGeneral_eq_visit, visit_eq_foldl_log]
  rfl

theorem sumArr_append_singleton (current : List Int) (v : Int) :
    sumArr (current ++ [v]) = sumArr current + v := by
  rw [sumArr_eq_sum, sumArr_eq_sum, List.sum_append, List.sum_singleton]

theorem visit_log_invariant (l : Nat) (p : Int) : ∀ (remaining : Nat) (current : List Int)
    (acc : List (List Int)), current.length + remaining = l → (∀ x ∈ current, 0 ≤ x) →
    sumArr current ≤ p →
    (∀ s ∈ acc, s.length = l ∧ (∀ x ∈ s, 0 ≤ x) ∧ sumArr s ≤ p) →
    ∀ s ∈ visitGeneral (fun current acc => acc ++ [current]) p remaining current acc,
      s.length = l ∧ (∀ x ∈ s, 0 ≤ x) ∧ sumArr s ≤ p
  | 0, current, acc, hlen, hdom, hsum, hacc => by
    intro s hs
    simp only [visitGeneral, List.mem_append, List.mem_singleton] at hs
    rcases hs with hs | rfl
    · exact hacc s hs
    · exact ⟨by omega, hdom, hsum⟩
  | remaining + 1, current, acc, hlen, hdom, hsum, hacc => by
    simp only [visitGeneral]
    apply foldl_invariant
      (fun a : List (List Int) => ∀ s ∈ a, s.length = l ∧ (∀ x ∈ s, 0 ≤ x) ∧ sumArr s ≤ p)
      _ _ _ hacc
    intro b v hv hb
    have hv2 := mem_countdown.1 hv
    refine visit_log_invariant l p remaining (current ++ [v]) b
      (by rw [List.length_append, List.length_singleton]; omega) ?_ ?_ hb
    · intro x hx
      rcases List.mem_append.1 hx with hx | hx
      · exact hdom x hx
      · rw [List.mem_singleton] at hx
        rw [hx]
        exact hv2.1
    · rw [sumArr_append_singleton]
      omega

/-- C19, as stated, fails at `L = 2`, `P = 1`: not every completed sequence reached by
the backtracking of `solveGeneral` has sum `P`; the leaf `[0, 0]` is reached with sum 0,
and the leaf block rejects it by the sum test alone. -/
theorem reached_sum_not_exact :
    ¬ (∀ s ∈ reachedGeneral 1 2, sumArr s = 1) ∧
      ([0, 0] ∈ reachedGeneral 1 2 ∧ sumArr [0, 0] ≠ 1) := by decide

/-- C19, amended: in `solveGeneral` with `L ≥ 0` and `P ≥ 0`, capping each slot at the
remaining budget guarantees that every completed sequence reached by the backtracking
has length `L`, non-negative entries and sum at most `P` (not necessarily `P`). -/
theorem reached_sum_le (l : Nat) (p : Int) (hp : 0 ≤ p) (s : List Int)
    (hs : s ∈ reachedGeneral p l) :
    s.length = l ∧ (∀ x ∈ s, 0 ≤ x) ∧ sumArr s ≤ p :=
  visit_log_invariant l p l [] [] (by simp) (by simp)
    (by rw [sumArr_eq_sum]; simpa using hp) (by simp) s hs

theorem reached_sum_le_witness :
    ([0, 0] : List Int).length = 2 ∧ (∀ x ∈ ([0, 0] : List Int), 0 ≤ x) ∧ sumArr [0, 0] ≤ 1 :=
  reached_sum_le 2 1 (by decide) [0, 0] (by decide)

/-! ## Binary mode inside general mode -/

theorem compareArrays_asymm : ∀ (a b : List Int), compareArrays a b > 0 →
    compareArrays b a < 0
  | [], _, h => by simp [compareArrays] at h
  | _ :: as, [], h => by
    simp only [compareArrays, compareArrays_nil_right] at h
    omega
  | x :: as, y :: bs, h => by
    have ih := compareArrays_asymm as bs
    simp only [compareArrays] at h ⊢
    split_ifs at h ⊢ <;> omega

theorem nodup_of_strictly_descending {xs : List (List Int)}
    (hx : xs.Pairwise (fun a b => compareArrays a b > 0)) : xs.Nodup := by
  unfold List.Nodup
  refine hx.imp ?_
  intro a b h hab
  rw [hab, compareArrays_self] at h
  omega

/-- Two lists that are strictly descending for the comparator and have the same members
are equal. -/
theorem eq_of_strictly_descending {xs ys : List (List Int)}
    (hx : xs.Pairwise (fun a b => compareArrays a b > 0))
    (hy : ys.Pairwise (fun a b => compareArrays a b > 0))
    (hmem : ∀ a, a ∈ xs ↔ a ∈ ys) : xs = ys := by
  haveI : IsAntisymm (List Int) (fun a b => compareArrays a b > 0) :=
    ⟨fun a b h1 h2 => by
      have := compareArrays_asymm a b h1
      omega⟩
  exact List.eq_of_perm_of_sorted
    ((List.perm_ext_iff_of_nodup (nodup_of_strictly_descending hx)
      (nodup_of_strictly_descending hy)).2 hmem) hx hy

theorem mem_solveBinary_iff_filtered (l : Nat) (p m : Int) (r : List Int) :
    r ∈ solveBinary l p m ↔ r ∈ (solveGeneral l p m).filter entriesAtMostOne := by
  rw [List.mem_filter]
  constructor
  · intro hr
    have hleaf := solveBinary_fromLeaf hr
    refine ⟨?_, ?_⟩
    · obtain ⟨s, hlen, hdom, hsum, hpass, rfl⟩ := hleaf
      refine solveGeneral_complete l p m s hlen (fun x hx => ?_) hsum hpass
      rcases hdom x hx with h | h
      · rw [h]; exact le_refl (0 : Int)
      · rw [h]; exact Int.one_nonneg
    · unfold entriesAtMostOne
      rw [List.all_eq_true]
      intro x hx
      rcases fromLeaf_dom hleaf x hx with h | h <;> simp [h]
  · rintro ⟨hr, hone⟩
    unfold entriesAtMostOne at hone
    rw [List.all_eq_true] at hone
    obtain ⟨s, hlen, hdom, hsum, hpass, rfl⟩ := solveGeneral_fromLeaf hr
    refine solveBinary_complete l p m s hlen (fun x hx => ?_) hsum hpass
    have h0 : 0 ≤ x := hdom x hx
    have h1 : x ≤ 1 := by
      have := hone x ((getCanonical_isRotated s).mem_iff.1 hx)
      simpa using this
    unfold IsBit
    omega

theorem solveBinary_strict (l : Nat) (p m : Int) :
    (solveBinary l p m).Pairwise (fun a b => compareArrays a b > 0) :=
  sortDescending_strict l _
    (fun x hx => fromLeaf_length ((solveBinary_stateOK l p m).sound x hx))
    (solveBinary_stateOK l p m).nodup

theorem solveGeneral_strict (l : Nat) (p m : Int) :
    (solveGeneral l p m).Pairwise (fun a b => compareArrays a b > 0) :=
  sortDescending_strict l _
    (fun x hx => fromLeaf_length ((solveGeneral_stateOK l p m).sound x hx))
    (solveGeneral_stateOK l p m).nodup

theorem solveBinary_eq_filtered (l : Nat) (p m : Int) :
    solveBinary l p m = (solveGeneral l p m).filter entriesAtMostOne :=
  eq_of_strictly_descending (solveBinary_strict l p m)
    ((solveGeneral_strict l p m).filter _) (mem_solveBinary_iff_filtered l p m)

theorem binaryMode_eq_solveBinary (l : Nat) (p m : Int) :
    binaryMode l p m = solveBinary l p m := by
  unfold binaryMode
  split_ifs with h
  · rfl
  · have hempty : solveBinary l p m = [] := by
      unfold solveBinary
      rw [backtrackBinary_infeasible l p m (by omega)]
      rfl
    rw [hempty]

/-- C20: binary mode is exactly general mode restricted to {0, 1}: the list
`solveBinary(L, P, M)` equals the sub-list, in the same order, of `solveGeneral(L, P, M)`
made of the sequences all of whose entries are at most 1, and so does the guarded binary
mode of the handler; for `P > L` that sub-list is empty, matching the binary result. -/
theorem binary_is_general_restricted (l : Nat) (p m : Int) :
    solveBinary l p m = (solveGeneral l p m).filter entriesAtMostOne ∧
    binaryMode l p m = (solveGeneral l p m).filter entriesAtMostOne ∧
    ((l : Int) < p →
      (solveGeneral l p m).filter entriesAtMostOne = [] ∧ binaryMode l p m = []) := by
  have h1 := solveBinary_eq_filtered l p m
  have h2 : binaryMode l p m = (solveGeneral l p m).filter entriesAtMostOne := by
    rw [binaryMode_eq_solveBinary, h1]
  refine ⟨h1, h2, fun hlt => ?_⟩
  have hempty : binaryMode l p m = [] := by
    unfold binaryMode
    rw [if_neg (by omega)]
  exact ⟨by rw [← h2, hempty], hempty⟩

theorem binary_is_general_restricted_witness :
    solveBinary 3 2 2 = (solveGeneral 3 2 2).filter entriesAtMostOne ∧
    ((solveGeneral 2 3 1).filter entriesAtMostOne = [] ∧ binaryMode 2 3 1 = []) :=
  ⟨(binary_is_general_restricted 3 2 2).1,
    (binary_is_general_restricted 2 3 1).2.2 (by decide)⟩

end Colliers
